import Mathlib

/-!
Verification model of the PlexDB embedded document store.

The source is a TypeScript module with three tightly-coupled layers:
a path-confined storage engine (with an in-memory cache in front of a
file-per-key durable store), an index manager (unique and non-unique
secondary indexes stored as storage entries), and a schema-validated
collection layer (create / get / write / delete / findOne / findAll).

Modelling conventions (shallow embedding):
- Field values are the JSON primitives (string, integer, boolean, null);
  the JSON serialize/parse round trip is the identity on these, and the
  JavaScript strict-equality comparisons the source performs on them
  coincide with structural equality.
- JavaScript objects are ordered association lists with unique keys;
  property assignment keeps the original insertion position of a key and
  appends fresh keys at the end.
- The storage cache in the source is a Map that is only ever updated by
  plain property assignment (cache[path] = data), never by Map.set, so
  the model keeps two separate components: cacheEntries (real Map
  entries, observed by has/size/delete/keys) and cacheProps (plain
  object properties, observed by bracket reads and writes).
- Durable files are a map from canonical absolute path to stored value;
  directories created by makeDirectory (and by write's parent-creation)
  are tracked in a separate set, because existsSync also answers true
  for directories.  Recursive creation of ancestor directories is
  elided: no modelled operation observes an ancestor of a created
  directory.
- Asynchronous operations are modelled sequentially in source order;
  the claims treated here are sequential ones.
- Event emission (the notification bus) has no effect on any modelled
  state and is elided.
- node's resolve/normalize/join on POSIX paths are modelled by
  canonical segment processing on character lists; the JavaScript
  String.prototype.startsWith test used by storage.prefix is modelled
  character-for-character as a list prefix test.
-/

/-- JSON primitive values: the field values stored in documents. -/
inductive Val where
  | str (s : String)
  | num (n : Int)
  | bool (b : Bool)
  | null
deriving DecidableEq

/-- A document (or query): a JavaScript object as an ordered association
list of field name to primitive value. -/
abbrev Doc := List (String × Val)

/-- Values stored by the storage engine: a single primitive (unique index
entry: one document id), an id array (non-unique index entry), or a
document record. -/
inductive SVal where
  | prim (v : Val)
  | ids (l : List String)
  | doc (d : Doc)
deriving DecidableEq

/-- Errors thrown by the source: the path-escape guard in storage.prefix,
the two create-time validation failures, and the TypeErrors JavaScript
raises when the source dereferences a missing schema entry or pushes to
a non-array. -/
inductive Err where
  | pathEscape
  | missingRequired
  | uniqueViolation
  | typeError
deriving DecidableEq

/-- JavaScript object property read: first (and only) binding of a key. -/
def getA {α : Type} : List (String × α) → String → Option α
  | [], _ => none
  | (k', v') :: rest, k => if k' = k then some v' else getA rest k

/-- JavaScript object property assignment: replace in place if the key is
present, append otherwise. -/
def setA {α : Type} : List (String × α) → String → α → List (String × α)
  | [], k, v => [(k, v)]
  | (k', v') :: rest, k, v =>
      if k' = k then (k, v) :: rest else (k', v') :: setA rest k v

/-- Removal of a key's binding (delete / rm of a single entry). -/
def eraseA {α : Type} : List (String × α) → String → List (String × α)
  | [], _ => []
  | (k', v') :: rest, k => if k' = k then rest else (k', v') :: eraseA rest k

/-- The keys of an association list, in order. -/
def keysA {α : Type} (l : List (String × α)) : List String := l.map Prod.fst

/-- Split a character list into path segments at '/' characters. -/
def splitSegs : List Char → List (List Char)
  | [] => [[]]
  | c :: cs =>
      if c = '/' then [] :: splitSegs cs
      else
        match splitSegs cs with
        | [] => [[c]]
        | s :: ss => (c :: s) :: ss

/-- One step of POSIX canonicalization: empty and "." segments vanish,
".." pops the previous segment (staying at the root when there is none),
anything else is kept. -/
def canonStep (acc : List (List Char)) (seg : List Char) : List (List Char) :=
  if seg = [] ∨ seg = ['.'] then acc
  else if seg = ['.', '.'] then acc.dropLast
  else acc ++ [seg]

def canonSegs (segs : List (List Char)) : List (List Char) :=
  segs.foldl canonStep []

/-- Render an absolute path from its canonical segments. -/
def renderAbs (segs : List (List Char)) : List Char :=
  segs.foldl (fun acc s => acc ++ '/' :: s) []

/-- Model of resolve(normalize(s)) for an absolute POSIX path string. -/
def canonAbs (s : String) : String :=
  match canonSegs (splitSegs s.data) with
  | [] => "/"
  | segs => String.mk (renderAbs segs)

/-- Character-level list prefix test. -/
def isPre : List Char → List Char → Bool
  | [], _ => true
  | _ :: _, [] => false
  | a :: as, b :: bs => a = b && isPre as bs

/-- Model of JavaScript String.prototype.startsWith: a character-level
prefix test. -/
def startsWithM (pre s : String) : Bool := isPre pre.data s.data

/-- storage.prefix: join the logical path under the database root,
canonicalize, and accept only if the result still starts with the root
string. -/
def prefixRes (root path : String) : Except Err String :=
  let p := canonAbs (root ++ "/" ++ path)
  if startsWithM root p then .ok p else .error .pathEscape

/-- The last path segment of a canonical absolute path. -/
def lastSeg (p : String) : String :=
  match (splitSegs p.data).getLast? with
  | some s => String.mk s
  | none => ""

/-- POSIX dirname of a canonical absolute path. -/
def dirnameStr (p : String) : String :=
  match ((splitSegs p.data).dropLast.filter (· ≠ [])) with
  | [] => "/"
  | segs => String.mk (renderAbs segs)

/-- Storage engine state.  disk and dirs are keyed by canonical absolute
paths; cacheEntries and cacheProps are keyed by the logical paths the
callers pass in (the source consults the cache before prefixing). -/
structure St where
  disk : List (String × SVal)
  dirs : List String
  cacheProps : List (String × SVal)
  cacheEntries : List String
deriving DecidableEq

/-- A freshly constructed engine: empty durable store, empty Map. -/
def initSt : St := ⟨[], [], [], []⟩

/-- storage.read: serve from the cache if the Map has the logical path
(the bracket read then consults the plain properties); otherwise prefix
the path and deserialize the file, absent files giving undefined. -/
def storageRead (root : String) (st : St) (path : String) :
    Except Err (Option SVal) :=
  if path ∈ st.cacheEntries then .ok (getA st.cacheProps path)
  else
    match prefixRes root path with
    | .error e => .error e
    | .ok p => .ok (getA st.disk p)

/-- storage.write: assign the value as a plain property of the cache
object (this happens before the prefix check in the source), then
prefix, create the parent directory if nothing exists there, and persist
the serialized value. -/
def storageWrite (root : String) (st : St) (path : String) (v : SVal) :
    St × Option Err :=
  let st1 := { st with cacheProps := setA st.cacheProps path v }
  match prefixRes root path with
  | .error e => (st1, some e)
  | .ok p =>
      let dp := dirnameStr p
      let st2 :=
        if (getA st1.disk dp).isSome || st1.dirs.contains dp then st1
        else { st1 with dirs := st1.dirs ++ [dp] }
      ({ st2 with disk := setA st2.disk p v }, none)

/-- storage.exists: true if the Map has the logical path, otherwise
existsSync on the prefixed path (true for files and directories). -/
def storageExistsB (root : String) (st : St) (path : String) :
    Except Err Bool :=
  if path ∈ st.cacheEntries then .ok true
  else
    match prefixRes root path with
    | .error e => .error e
    | .ok p => .ok ((getA st.disk p).isSome || st.dirs.contains p)

/-- storage.remove: delete the prefixed path from the Map, then remove
the entry from durable storage if it exists; removing a missing path is
not an error. -/
def storageRemove (root : String) (st : St) (path : String) :
    St × Option Err :=
  match prefixRes root path with
  | .error e => (st, some e)
  | .ok p =>
      let st1 := { st with cacheEntries := st.cacheEntries.erase p }
      match storageExistsB root st1 path with
      | .error e => (st1, some e)
      | .ok true =>
          ({ st1 with disk := eraseA st1.disk p, dirs := st1.dirs.erase p },
           none)
      | .ok false => (st1, none)

/-- The immediate children of a canonical directory path. -/
def childrenOf (st : St) (p : String) : List String :=
  ((keysA st.disk ++ st.dirs).filter (fun q => dirnameStr q = p)).map lastSeg

/-- storage.list: undefined for a missing path, else the directory
listing of the prefixed path. -/
def storageList (root : String) (st : St) (path : String) :
    Except Err (Option (List String)) :=
  match storageExistsB root st path with
  | .error e => .error e
  | .ok false => .ok none
  | .ok true =>
      match prefixRes root path with
      | .error e => .error e
      | .ok p => .ok (some (childrenOf st p))

/-- storage.makedir: create the prefixed directory (ancestors elided). -/
def storageMakedir (root : String) (st : St) (path : String) :
    St × Option Err :=
  match prefixRes root path with
  | .error e => (st, some e)
  | .ok p =>
      (if st.dirs.contains p then st else { st with dirs := st.dirs ++ [p] },
       none)

/-- The batch-eviction loop of the cache-clearing interval: while the Map
still holds at least 10000 entries, delete the next 200 keys in
iteration order. -/
def evictLoop (l : List String) : List String :=
  if _h : l.length < 10000 then l else evictLoop (l.drop 200)
termination_by l.length
decreasing_by
  simp only [List.length_drop]
  omega

/-- One firing of the cacheClear interval: a no-op below the high-water
mark of 10000 resident Map entries, else the eviction loop. -/
def cacheClearTick (st : St) : St :=
  if st.cacheEntries.length < 10000 then st
  else { st with cacheEntries := evictLoop st.cacheEntries }

/-- The database root directory used throughout the collection-level
development. -/
def dbRoot : String := "/db"

/-- Decimal digits of a natural number (model of JavaScript number
rendering for the non-negative case); structural recursion on a fuel
argument that always suffices, so that the kernel can evaluate it. -/
def natCharsAux : Nat → Nat → List Char
  | 0, n => [Char.ofNat (48 + n % 10)]
  | fuel + 1, n =>
      if n < 10 then [Char.ofNat (48 + n)]
      else natCharsAux fuel (n / 10) ++ [Char.ofNat (48 + n % 10)]

def natChars (n : Nat) : List Char := natCharsAux n n

/-- Decimal rendering of an integer. -/
def intChars (n : Int) : List Char :=
  if n < 0 then '-' :: natChars n.natAbs else natChars n.natAbs

/-- JSON.stringify on primitive values (string escaping elided: the
values in scope contain no characters needing escapes). -/
def jsonOfVal : Val → List Char
  | .str s => '"' :: s.data ++ ['"']
  | .num n => intChars n
  | .bool true => ['t', 'r', 'u', 'e']
  | .bool false => ['f', 'a', 'l', 's', 'e']
  | .null => ['n', 'u', 'l', 'l']

/-- A hexadecimal digit character. -/
def hexDigit (n : Nat) : Char :=
  if n < 10 then Char.ofNat (48 + n) else Char.ofNat (87 + n)

/-- Six hex digits covering any Unicode code point. -/
def hexOfChar (c : Char) : List Char :=
  [hexDigit (c.toNat / 1048576 % 16), hexDigit (c.toNat / 65536 % 16),
   hexDigit (c.toNat / 4096 % 16), hexDigit (c.toNat / 256 % 16),
   hexDigit (c.toNat / 16 % 16), hexDigit (c.toNat % 16)]

/-- pathsafe: hex encoding of the serialized field value, used as the
index file name for that value. -/
def pathsafe (v : Val) : String :=
  String.mk ((jsonOfVal v).map hexOfChar).flatten

/-- A usable single path segment: nonempty, slash-free, and not one of
the special names collapsed by canonicalization. -/
def GoodSeg (s : String) : Prop :=
  s.data ≠ [] ∧ '/' ∉ s.data ∧ s ≠ "." ∧ s ≠ ".."

instance (s : String) : Decidable (GoodSeg s) := by
  unfold GoodSeg; infer_instance

/-- POSIX join of path segments (the source joins with path/posix.join,
whose normalization is the identity on such segment lists). -/
def segJoin : List String → String
  | [] => ""
  | [s] => s
  | s :: rest => s ++ "/" ++ segJoin rest

/-- join("data", collection, id): the durable location of a document. -/
def dataPath (cname id : String) : String := segJoin ["data", cname, id]

/-- join("index", collection, field, pathsafe(value)): the durable
location of an index entry. -/
def indexPath (cname key : String) (v : Val) : String :=
  segJoin ["index", cname, key, pathsafe v]

/-- The canonical absolute form of a good logical path under dbRoot. -/
def cp (p : String) : String := "/db/" ++ p

/-- A schema field descriptor. -/
inductive Dflt where
  | val (v : Val)
  | producer (v : Val)
deriving DecidableEq

structure FieldDesc where
  index : Bool := false
  unique : Bool := false
  required : Bool := false
  default : Option Dflt := none
deriving DecidableEq

/-- The descriptor the Collection constructor installs for id: indexed,
unique, required.  Its default in the source is the UUID generator; the
model supplies the generated value through the freshId argument of
create. -/
def idDesc : FieldDesc :=
  { index := true, unique := true, required := true, default := none }

/-- The constructor's assignment this.schema["id"] = idDesc: an existing
id key keeps its position, otherwise id is appended at the end. -/
def installId (s : List (String × FieldDesc)) : List (String × FieldDesc) :=
  if (keysA s).contains "id" then
    s.map (fun kv => if kv.1 = "id" then ("id", idDesc) else kv)
  else s ++ [("id", idDesc)]

structure Coll where
  name : String
  schema : List (String × FieldDesc)
deriving DecidableEq

/-- new Collection(name, _, schema, db): install the id descriptor. -/
def mkColl (name : String) (schema : List (String × FieldDesc)) : Coll :=
  ⟨name, installId schema⟩

/-- The constructor's directory setup: data/<name>, index/<name>, and
index/<name>/<key> for every indexed non-id field. -/
def Coll.initDirs (c : Coll) (root : String) (st : St) : St :=
  let st1 := (storageMakedir root st (segJoin ["data", c.name])).1
  let st2 := (storageMakedir root st1 (segJoin ["index", c.name])).1
  c.schema.foldl
    (fun s kv =>
      if kv.1 = "id" then s
      else if kv.2.index then
        (storageMakedir root s (segJoin ["index", c.name, kv.1])).1
      else s)
    st2

/-- Candidate drawn from a unique index entry (the source casts the file
content to a single id). -/
def uniqueCand : Option SVal → List String
  | some (.prim (.str u)) => [u]
  | _ => []

/-- Candidates drawn from a non-unique index entry (the source casts the
file content to an id array). -/
def idsCand : Option SVal → List String
  | some (.ids l) => l
  | _ => []

/-- Set.add: append if not already present (JavaScript Sets preserve
insertion order). -/
def addCand (acc : List String) (u : String) : List String :=
  if acc.contains u then acc else acc ++ [u]

def addCands (acc : List String) (us : List String) : List String :=
  us.foldl addCand acc

/-- The candidate-gathering pass shared by findOne and findAll: for each
queried field in order, skip id, skip fields without an indexed schema
entry, and otherwise read the index entry for the queried value. -/
def gatherCands (c : Coll) (root : String) (st : St) :
    List (String × Val) → List String → Except Err (List String)
  | [], acc => .ok acc
  | (k, v) :: rest, acc =>
      if k = "id" then gatherCands c root st rest acc
      else
        match getA c.schema k with
        | none => gatherCands c root st rest acc
        | some fd =>
            if fd.index then
              match storageExistsB root st (indexPath c.name k v) with
              | .error e => .error e
              | .ok false => gatherCands c root st rest acc
              | .ok true =>
                  match storageRead root st (indexPath c.name k v) with
                  | .error e => .error e
                  | .ok content =>
                      gatherCands c root st rest
                        (if fd.unique then addCands acc (uniqueCand content)
                         else addCands acc (idsCand content))
            else gatherCands c root st rest acc

/-- The stored data of a candidate: absent data makes the source crash
with a TypeError when it dereferences undefined; content of a non-record
shape never equals a query binding under strict equality and is treated
as a non-match. -/
def candDoc : Option SVal → Except Err (Option Doc)
  | none => .error .typeError
  | some (.doc d) => .ok (some d)
  | some _ => .ok none

/-- The final equality pass: every queried field must match the stored
document exactly. -/
def matchesQ (q : List (String × Val)) (d : Doc) : Bool :=
  q.all fun kv => getA d kv.1 = some kv.2

/-- findOne's candidate loop: return the first candidate whose document
matches every queried field. -/
def firstMatch (c : Coll) (root : String) (st : St)
    (q : List (String × Val)) : List String → Except Err (Option Doc)
  | [] => .ok none
  | u :: rest =>
      match storageRead root st (dataPath c.name u) with
      | .error e => .error e
      | .ok o =>
          match candDoc o with
          | .error e => .error e
          | .ok none => firstMatch c root st q rest
          | .ok (some d) =>
              if matchesQ q d then .ok (some d)
              else firstMatch c root st q rest

def Coll.findOne (c : Coll) (root : String) (st : St) (q : Doc) :
    Except Err (Option Doc) :=
  match gatherCands c root st q [] with
  | .error e => .error e
  | .ok cands => firstMatch c root st q cands

/-- findAll's candidate loop: collect every matching candidate, in
candidate order. -/
def collectMatches (c : Coll) (root : String) (st : St)
    (q : List (String × Val)) : List String → List Doc → Except Err (List Doc)
  | [], res => .ok res
  | u :: rest, res =>
      match storageRead root st (dataPath c.name u) with
      | .error e => .error e
      | .ok o =>
          match candDoc o with
          | .error e => .error e
          | .ok none => collectMatches c root st q rest res
          | .ok (some d) =>
              if matchesQ q d then collectMatches c root st q rest (res ++ [d])
              else collectMatches c root st q rest res

def Coll.findAll (c : Coll) (root : String) (st : St) (q : Doc) :
    Except Err (List Doc) :=
  match gatherCands c root st q [] with
  | .error e => .error e
  | .ok cands => collectMatches c root st q cands []

/-- The document id used for the data path (documents in scope carry a
string id). -/
def idOf (d : Doc) : String :=
  match getA d "id" with
  | some (.str u) => u
  | _ => ""

def Coll.get (c : Coll) (root : String) (st : St) (id : String) :
    Except Err (Option SVal) :=
  storageRead root st (dataPath c.name id)

/-- Truthiness of a primitive value. -/
def falsyV : Val → Bool
  | .str s => s = ""
  | .num n => n = 0
  | .bool b => !b
  | .null => true

/-- (await read(indexPath)) as UUID[] || []: undefined and falsy
primitives give the empty array; an array is taken as is (arrays are
truthy even when empty); any other truthy content has no push method and
raises a TypeError. -/
def asIds : Option SVal → Except Err (List String)
  | none => .ok []
  | some (.ids l) => .ok l
  | some (.prim v) => if falsyV v then .ok [] else .error .typeError
  | some (.doc _) => .error .typeError

/-- The per-field index maintenance of Collection.write, in field order:
skip id; dereference the schema entry (a missing one is a TypeError);
for indexed fields overwrite the unique entry with the id, or append the
id to the non-unique id array. -/
def writeFields (c : Coll) (root : String) (u : String) :
    List (String × Val) → St → St × Option Err
  | [], st => (st, none)
  | (k, v) :: rest, st =>
      if k = "id" then writeFields c root u rest st
      else
        match getA c.schema k with
        | none => (st, some .typeError)
        | some fd =>
            if fd.index then
              if fd.unique then
                match storageWrite root st (indexPath c.name k v)
                    (.prim (.str u)) with
                | (st1, some e) => (st1, some e)
                | (st1, none) => writeFields c root u rest st1
              else
                match storageRead root st (indexPath c.name k v) with
                | .error e => (st, some e)
                | .ok content =>
                    match asIds content with
                    | .error e => (st, some e)
                    | .ok l =>
                        match storageWrite root st (indexPath c.name k v)
                            (.ids (l ++ [u])) with
                        | (st1, some e) => (st1, some e)
                        | (st1, none) => writeFields c root u rest st1
            else writeFields c root u rest st

/-- Collection.write: persist the document under data/<name>/<id>, then
maintain the index entry of every indexed field. -/
def Coll.write (c : Coll) (root : String) (st : St) (d : Doc) :
    St × Option Err :=
  match storageWrite root st (dataPath c.name (idOf d)) (.doc d) with
  | (st1, some e) => (st1, some e)
  | (st1, none) => writeFields c root (idOf d) d st1

/-- The per-field removals of Collection.delete. -/
def deleteFields (c : Coll) (root : String) :
    List (String × Val) → St → St × Option Err
  | [], st => (st, none)
  | (k, v) :: rest, st =>
      if k = "id" then deleteFields c root rest st
      else
        match getA c.schema k with
        | none => (st, some .typeError)
        | some fd =>
            if fd.index then
              match storageRemove root st (indexPath c.name k v) with
              | (st1, some e) => (st1, some e)
              | (st1, none) => deleteFields c root rest st1
            else deleteFields c root rest st

/-- Collection.delete: remove the data entry and, for every indexed
field, the whole index entry for the document's value. -/
def Coll.delete (c : Coll) (root : String) (st : St) (d : Doc) :
    St × Option Err :=
  match storageRemove root st (dataPath c.name (idOf d)) with
  | (st1, some e) => (st1, some e)
  | (st1, none) => deleteFields c root d st1

/-- A default counts as absent when it is itself falsy (the source tests
!this.schema[key].default); functions are truthy. -/
def dfltFalsy : Dflt → Bool
  | .val v => falsyV v
  | .producer _ => false

def dfltValue : Dflt → Val
  | .val v => v
  | .producer v => v

/-- The default-resolution step of create for one non-id field: when the
field is required and its current value is missing or falsy, resolve it
from the default, failing when no (truthy) default is configured. -/
def resolveField (fd : FieldDesc) (k : String) (d : Doc) : Doc × Option Err :=
  if fd.required && (match getA d k with | none => true | some v => falsyV v)
  then
    match fd.default with
    | none => (d, some .missingRequired)
    | some df =>
        if dfltFalsy df then (d, some .missingRequired)
        else (setA d k (dfltValue df), none)
  else (d, none)

/-- Collection.create's pass over the schema, in schema order.  The id
field is assigned the freshly generated id (the installed default
producer is randomUUID) and skipped; other fields first resolve their
default, then, when unique, run the equality lookup on the field's
current value, failing on a hit.  A unique lookup on an absent value
crashes in pathsafe (JSON.stringify gives undefined).  The input
document is mutated in place; the Doc component of the result is the
caller-visible object in all outcomes. -/
def createFields (c : Coll) (root : String) (st : St) (freshId : String) :
    List (String × FieldDesc) → Doc → St × Doc × Except Err Unit
  | [], d => (st, d, .ok ())
  | (k, fd) :: rest, d =>
      if k = "id" then
        createFields c root st freshId rest (setA d "id" (.str freshId))
      else
        match resolveField fd k d with
        | (d1, some e) => (st, d1, .error e)
        | (d1, none) =>
            if fd.unique then
              match getA d1 k with
              | none => (st, d1, .error .typeError)
              | some v =>
                  match Coll.findOne c root st [(k, v)] with
                  | .error e => (st, d1, .error e)
                  | .ok (some _) => (st, d1, .error .uniqueViolation)
                  | .ok none => createFields c root st freshId rest d1
            else createFields c root st freshId rest d1

/-- Collection.create: validate and assemble, never persist.  On success
the mutated input is also the returned document. -/
def Coll.create (c : Coll) (root : String) (st : St) (freshId : String)
    (data : Doc) : St × Doc × Except Err Unit :=
  createFields c root st freshId c.schema data

/-- The storage engine with the cache removed: reads and existence
checks against durable state only.  Modelled from the spec's reading of
the intended cache contract, for comparison with the implementation. -/
def readNC (root : String) (disk : List (String × SVal)) (path : String) :
    Except Err (Option SVal) :=
  match prefixRes root path with
  | .error e => .error e
  | .ok p => .ok (getA disk p)

def existsNCB (root : String) (disk : List (String × SVal))
    (dirs : List String) (path : String) : Except Err Bool :=
  match prefixRes root path with
  | .error e => .error e
  | .ok p => .ok ((getA disk p).isSome || dirs.contains p)

/-- Whether an index-entry slot holds content a non-unique index append
can consume: absent or an id array. -/
def idsShaped : Option SVal → Bool
  | none => true
  | some (.ids _) => true
  | some _ => false

/-- Sequential persistence of a list of documents. -/
def writeMany (c : Coll) (root : String) :
    List Doc → St → St × Option Err
  | [], st => (st, none)
  | d :: rest, st =>
      match Coll.write c root st d with
      | (st1, some e) => (st1, some e)
      | (st1, none) => writeMany c root rest st1

/-- Sequential storage.write of one value under many logical paths. -/
def writeSeq (root : String) (ps : List String) (v : SVal) (st : St) : St :=
  ps.foldl (fun s p => (storageWrite root s p v).1) st

/-- Distinct logical cache keys: one more than the high-water mark. -/
def c8Keys : List String :=
  (List.range 10001).map (fun i => String.mk (List.replicate (i + 1) 'a'))

/-- Spec-side reading of path confinement: a canonical path stays under
the root iff it is the root itself or extends it past a separator. -/
def underRoot (root p : String) : Bool :=
  p = root || isPre (root ++ "/").data p.data

deriving instance DecidableEq for Except

/-- Whether a queried field has no indexed schema entry (the source's
schema[key]?.index test failing). -/
def notIndexed (c : Coll) (k : String) : Bool :=
  match getA c.schema k with
  | none => true
  | some fd => !fd.index

/-- Fixture: a collection with one indexed field a and one plain field b. -/
def cC7 : Coll := mkColl "user" [("id", {}), ("a", { index := true }), ("b", {})]

def dC7 : Doc := [("id", .str "u1"), ("a", .num 1), ("b", .num 2)]

def stC7 : St := (Coll.write cC7 dbRoot initSt dC7).1

/-- Fixture: a collection whose schema is only the implicit id field. -/
def cC3 : Coll := mkColl "user" [("id", {})]

def dC3 : Doc := [("id", .str "u1")]

/-- Fixture: id plus a required field with no default. -/
def cW10 : Coll := mkColl "user" [("id", {}), ("username", { required := true })]

/-- Fixture: id plus a unique indexed required field. -/
def cU2 : Coll :=
  mkColl "user" [("id", {}), ("username", { index := true, unique := true, required := true })]

def dU2 : Doc := [("id", .str "u1"), ("username", .str "alice")]

/-- Fixture: id plus one non-unique indexed field. -/
def cC6 : Coll := mkColl "user" [("id", {}), ("tag", { index := true })]

def dsC6 : List Doc :=
  [[("id", .str "u1"), ("tag", .str "t")],
   [("id", .str "u2"), ("tag", .str "t")],
   [("id", .str "u3"), ("tag", .str "t")]]

/-- Fixture: a state with one durable file and one cache property. -/
def stC9 : St := ⟨[("/db/x", .prim .null)], [], [("q", .prim .null)], []⟩

/-- The id list a non-unique index entry currently holds (absent or
non-array content contributes nothing). -/
def prevIds : Option SVal → List String
  | some (.ids l) => l
  | _ => []

/-- Well-formedness of a document for a collection: unique, usable field
names, every non-id field described by the schema, and a string id. -/
def WFDoc (c : Coll) (d : Doc) : Prop :=
  (keysA d).Nodup
  ∧ (∀ kv ∈ d, GoodSeg kv.1)
  ∧ (∀ kv ∈ d, kv.1 ≠ "id" → (getA c.schema kv.1).isSome = true)
  ∧ getA d "id" = some (.str (idOf d))
  ∧ GoodSeg (idOf d)

instance (c : Coll) (d : Doc) : Decidable (WFDoc c d) := by
  unfold WFDoc
  infer_instance

/-- Every non-unique index entry in the store holds appendable content
(absent or an id array), for usable field names. -/
def NonUniqueShaped (c : Coll) (st : St) : Prop :=
  ∀ (k : String), GoodSeg k → ∀ (v : Val) (fd : FieldDesc),
    getA c.schema k = some fd → fd.index = true → fd.unique = false →
    idsShaped (getA st.disk (cp (indexPath c.name k v))) = true

/-- Decidable form of the shape condition a write needs: every non-unique
indexed field of the document finds appendable content (absent or an id
array) at its index slot. -/
def shapeOK (c : Coll) (st : St) (kv : String × Val) : Bool :=
  match getA c.schema kv.1 with
  | none => true
  | some fd =>
      if fd.index && !fd.unique
      then idsShaped (getA st.disk (cp (indexPath c.name kv.1 kv.2)))
      else true

/-- Fixture: the document assembled by create for the round-trip case. -/
def dC1 : Doc := [("username", .str "bob"), ("id", .str "u1")]

theorem strExt {a b : String} (h : a.data = b.data) : a = b := by
  cases a
  cases b
  exact congrArg String.mk h

theorem data_append (s t : String) : (s ++ t).data = s.data ++ t.data := rfl

theorem data_mk (l : List Char) : (String.mk l).data = l := rfl

theorem getA_setA_self {α : Type} (l : List (String × α)) (k : String) (v : α) :
    getA (setA l k v) k = some v := by
  induction l with
  | nil => simp [getA, setA]
  | cons kv rest ih =>
      obtain ⟨k0, v0⟩ := kv
      by_cases h : k0 = k <;> simp [getA, setA, h, ih]

theorem getA_setA_ne {α : Type} (l : List (String × α)) (k k' : String) (v : α)
    (h : k' ≠ k) : getA (setA l k v) k' = getA l k' := by
  induction l with
  | nil => simp [getA, setA, Ne.symm h]
  | cons kv rest ih =>
      obtain ⟨k0, v0⟩ := kv
      by_cases hk : k0 = k
      · subst hk
        simp [getA, setA, Ne.symm h]
      · by_cases hk' : k0 = k' <;> simp [getA, setA, hk, hk', ih, h, Ne.symm h]

theorem getA_eq_none_of_not_mem {α : Type} (l : List (String × α)) (k : String)
    (h : k ∉ keysA l) : getA l k = none := by
  induction l with
  | nil => rfl
  | cons kv rest ih =>
      obtain ⟨k0, v0⟩ := kv
      simp [keysA] at h
      simp [getA, Ne.symm h.1]
      exact ih (by simpa [keysA] using h.2)

theorem fst_mem_keysA {α : Type} {l : List (String × α)} {kv : String × α}
    (h : kv ∈ l) : kv.1 ∈ keysA l :=
  List.mem_map_of_mem Prod.fst h

theorem keysA_cons {α : Type} (kv : String × α) (l : List (String × α)) :
    keysA (kv :: l) = kv.1 :: keysA l := rfl

theorem getA_mem_of_nodup {α : Type} (l : List (String × α)) (k : String) (v : α)
    (hn : (keysA l).Nodup) (hm : (k, v) ∈ l) : getA l k = some v := by
  induction l with
  | nil => simp at hm
  | cons kv rest ih =>
      obtain ⟨k0, v0⟩ := kv
      rw [keysA_cons] at hn
      have hn1 := (List.nodup_cons.mp hn).1
      have hn2 := (List.nodup_cons.mp hn).2
      rcases List.mem_cons.mp hm with hm | hm
      · injection hm with h1 h2
        subst h1
        subst h2
        simp [getA]
      · have hk : k0 ≠ k := by
          intro hh
          subst hh
          have hmem := fst_mem_keysA hm
          exact hn1 hmem
        simp [getA, hk]
        exact ih hn2 hm

theorem setA_fresh {α : Type} (l : List (String × α)) (k : String) (v : α)
    (h : k ∉ keysA l) : setA l k v = l ++ [(k, v)] := by
  induction l with
  | nil => rfl
  | cons kv rest ih =>
      obtain ⟨k0, v0⟩ := kv
      simp [keysA] at h
      simp [setA, Ne.symm h.1]
      exact ih (by simpa [keysA] using h.2)

theorem keysA_setA_fresh {α : Type} (l : List (String × α)) (k : String) (v : α)
    (h : k ∉ keysA l) : keysA (setA l k v) = keysA l ++ [k] := by
  simp [setA_fresh l k v h, keysA]

theorem length_setA_fresh {α : Type} (l : List (String × α)) (k : String) (v : α)
    (h : k ∉ keysA l) : (setA l k v).length = l.length + 1 := by
  simp [setA_fresh l k v h]

theorem keysA_setA_mem {α : Type} (l : List (String × α)) (k : String) (v : α)
    (h : k ∈ keysA l) : keysA (setA l k v) = keysA l := by
  induction l with
  | nil => simp [keysA] at h
  | cons kv rest ih =>
      obtain ⟨k0, v0⟩ := kv
      by_cases hk : k0 = k
      · simp [setA, hk, keysA]
      · simp [keysA, Ne.symm hk] at h
        simp [setA, hk, keysA]
        exact ih (by simpa [keysA] using h)

theorem nodup_keysA_setA {α : Type} (l : List (String × α)) (k : String) (v : α)
    (hn : (keysA l).Nodup) : (keysA (setA l k v)).Nodup := by
  by_cases h : k ∈ keysA l
  · rw [keysA_setA_mem l k v h]
    exact hn
  · rw [keysA_setA_fresh l k v h]
    exact hn.append (List.nodup_singleton k)
      (by intro a ha hb; simp at hb; subst hb; exact h ha)

theorem getA_eraseA_ne {α : Type} (l : List (String × α)) (k k' : String)
    (h : k' ≠ k) : getA (eraseA l k) k' = getA l k' := by
  induction l with
  | nil => rfl
  | cons kv rest ih =>
      obtain ⟨k0, v0⟩ := kv
      by_cases hk : k0 = k
      · subst hk
        simp [eraseA, getA, Ne.symm h]
      · simp [eraseA, getA, hk]
        by_cases hk' : k0 = k' <;> simp [hk', ih]

theorem getA_eraseA_self {α : Type} (l : List (String × α)) (k : String)
    (hn : (keysA l).Nodup) : getA (eraseA l k) k = none := by
  induction l with
  | nil => rfl
  | cons kv rest ih =>
      obtain ⟨k0, v0⟩ := kv
      simp [keysA] at hn
      by_cases hk : k0 = k
      · subst hk
        simp [eraseA]
        exact getA_eq_none_of_not_mem rest k0 (by simpa [keysA] using hn.1)
      · simp [eraseA, getA, hk]
        exact ih hn.2

theorem keysA_eraseA_sublist {α : Type} (l : List (String × α)) (k : String) :
    List.Sublist (keysA (eraseA l k)) (keysA l) := by
  induction l with
  | nil => simp [eraseA, keysA]
  | cons kv rest ih =>
      obtain ⟨k0, v0⟩ := kv
      by_cases hk : k0 = k
      · simp [eraseA, hk, keysA]
      · simpa [eraseA, hk, keysA] using ih.cons₂ k0

theorem nodup_keysA_eraseA {α : Type} (l : List (String × α)) (k : String)
    (hn : (keysA l).Nodup) : (keysA (eraseA l k)).Nodup :=
  hn.sublist (keysA_eraseA_sublist l k)

theorem isPre_append_self (a b : List Char) : isPre a (a ++ b) = true := by
  induction a with
  | nil => rfl
  | cons c cs ih => simp [isPre, ih]

theorem splitSegs_ne_nil (cs : List Char) : splitSegs cs ≠ [] := by
  induction cs with
  | nil => simp [splitSegs]
  | cons c cs ih =>
      by_cases h : c = '/'
      · simp [splitSegs, h]
      · cases hs : splitSegs cs with
        | nil => simp [splitSegs, h, hs]
        | cons s ss => simp [splitSegs, h, hs]

theorem splitSegs_slash (cs : List Char) :
    splitSegs ('/' :: cs) = [] :: splitSegs cs := by
  simp [splitSegs]

theorem splitSegs_cons_append (a cs : List Char) (s : List Char)
    (ss : List (List Char)) (h : '/' ∉ a) (hcs : splitSegs cs = s :: ss) :
    splitSegs (a ++ cs) = (a ++ s) :: ss := by
  induction a with
  | nil => simpa using hcs
  | cons c a ih =>
      have hc : ¬(c = '/') := by
        intro hh
        exact h (by simp [hh])
      have ha : '/' ∉ a := by
        intro hm
        exact h (List.mem_cons_of_mem _ hm)
      simp [splitSegs, hc, ih ha]

theorem splitSegs_noslash (a : List Char) (h : '/' ∉ a) :
    splitSegs a = [a] := by
  have := splitSegs_cons_append a [] [] [] h (by simp [splitSegs])
  simpa using this

theorem canonStep_skip (acc : List (List Char)) : canonStep acc [] = acc := by
  simp [canonStep]

theorem canonStep_keep (acc : List (List Char)) (s : List Char)
    (h1 : s ≠ []) (h2 : s ≠ ['.']) (h3 : s ≠ ['.', '.']) :
    canonStep acc s = acc ++ [s] := by
  simp [canonStep, h1, h2, h3]

/-- Character-level goodness of a path segment. -/
def goodC (s : List Char) : Prop := s ≠ [] ∧ s ≠ ['.'] ∧ s ≠ ['.', '.']

theorem foldl_canonStep_good (segs : List (List Char)) (acc : List (List Char))
    (h : ∀ s ∈ segs, goodC s) :
    List.foldl canonStep acc segs = acc ++ segs := by
  induction segs generalizing acc with
  | nil => simp
  | cons s ss ih =>
      obtain ⟨h1, h2, h3⟩ := h s (by simp)
      rw [List.foldl_cons, canonStep_keep acc s h1 h2 h3,
        ih (acc ++ [s]) (fun x hx => h x (by simp [hx]))]
      simp

theorem foldl_render (segs : List (List Char)) (acc : List Char) :
    List.foldl (fun acc s => acc ++ '/' :: s) acc segs = acc ++ renderAbs segs := by
  induction segs generalizing acc with
  | nil => simp [renderAbs]
  | cons s ss ih =>
      rw [List.foldl_cons, ih]
      have : renderAbs (s :: ss) = ('/' :: s) ++ renderAbs ss := by
        show List.foldl _ _ _ = _
        rw [List.foldl_cons, ih]
        simp
      rw [this]
      simp

theorem renderAbs_cons (s : List Char) (ss : List (List Char)) :
    renderAbs (s :: ss) = ('/' :: s) ++ renderAbs ss := by
  show List.foldl _ _ _ = _
  rw [List.foldl_cons, foldl_render]
  simp

theorem goodSeg_chars {s : String} (h : GoodSeg s) : goodC s.data := by
  obtain ⟨h1, h2, h3, h4⟩ := h
  refine ⟨h1, ?_, ?_⟩
  · intro hd
    exact h3 (strExt hd)
  · intro hd
    exact h4 (strExt hd)

theorem goodSeg_noslash {s : String} (h : GoodSeg s) : '/' ∉ s.data := h.2.1

theorem splitSegs_segJoin (L : List String) (hne : L ≠ [])
    (hg : ∀ s ∈ L, GoodSeg s) :
    splitSegs (segJoin L).data = L.map String.data := by
  induction L with
  | nil => exact absurd rfl hne
  | cons s rest ih =>
      cases rest with
      | nil =>
          simpa [segJoin] using splitSegs_noslash s.data (goodSeg_noslash (hg s (by simp)))
      | cons t rest' =>
          have hgs := hg s (by simp)
          have ihh := ih (by simp) (fun x hx => hg x (by simp [hx]))
          have hdata : (segJoin (s :: t :: rest')).data
              = s.data ++ ('/' :: (segJoin (t :: rest')).data) := by
            show (s ++ "/" ++ segJoin (t :: rest')).data = _
            simp [data_append]
          rw [hdata]
          rw [splitSegs_cons_append s.data ('/' :: (segJoin (t :: rest')).data)
            [] (splitSegs (segJoin (t :: rest')).data) (goodSeg_noslash hgs)
            (splitSegs_slash _)]
          simp [ihh]

theorem renderAbs_map_data (L : List String) (hne : L ≠ []) :
    renderAbs (L.map String.data) = '/' :: (segJoin L).data := by
  induction L with
  | nil => exact absurd rfl hne
  | cons s rest ih =>
      cases rest with
      | nil => simp [renderAbs_cons, renderAbs, segJoin]
      | cons t rest' =>
          rw [List.map_cons, renderAbs_cons, ih (by simp)]
          show _ = '/' :: (s ++ "/" ++ segJoin (t :: rest')).data
          simp [data_append]

theorem mkRender_db (L : List String) (hne : L ≠ []) :
    String.mk (renderAbs (['d', 'b'] :: L.map String.data)) = cp (segJoin L) := by
  apply strExt
  rw [data_mk, renderAbs_cons, renderAbs_map_data L hne]
  show _ = ("/db/" ++ segJoin L).data
  simp [data_append]

theorem root_slash_join (p : String) : dbRoot ++ "/" ++ p = cp p := by
  apply strExt
  simp [dbRoot, cp, data_append]

theorem splitSegs_cp (L : List String) (hne : L ≠ [])
    (hg : ∀ s ∈ L, GoodSeg s) :
    splitSegs (cp (segJoin L)).data = [] :: ['d', 'b'] :: L.map String.data := by
  have hdata : (cp (segJoin L)).data
      = '/' :: (['d', 'b'] ++ ('/' :: (segJoin L).data)) := by
    show ("/db/" ++ segJoin L).data = _
    simp [data_append]
  rw [hdata, splitSegs_slash,
    splitSegs_cons_append ['d', 'b'] ('/' :: (segJoin L).data)
      [] (splitSegs (segJoin L).data) (by simp) (splitSegs_slash _),
    splitSegs_segJoin L hne hg]
  simp

theorem canonAbs_cp (L : List String) (hne : L ≠ [])
    (hg : ∀ s ∈ L, GoodSeg s) :
    canonAbs (cp (segJoin L)) = cp (segJoin L) := by
  unfold canonAbs
  rw [splitSegs_cp L hne hg]
  show (match List.foldl canonStep [] _ with
    | [] => "/" | segs => String.mk (renderAbs segs)) = _
  rw [List.foldl_cons, canonStep_skip, List.foldl_cons,
    canonStep_keep [] ['d', 'b'] (by simp) (by simp) (by simp)]
  simp only [List.nil_append]
  rw [foldl_canonStep_good (L.map String.data) [['d', 'b']]
      (by
        intro x hx
        rcases List.mem_map.mp hx with ⟨s, hs, rfl⟩
        exact goodSeg_chars (hg s hs))]
  simp only [List.cons_append, List.nil_append]
  exact mkRender_db L hne

theorem prefixOkGood (L : List String) (hne : L ≠ [])
    (hg : ∀ s ∈ L, GoodSeg s) :
    prefixRes dbRoot (segJoin L) = .ok (cp (segJoin L)) := by
  unfold prefixRes
  rw [root_slash_join, canonAbs_cp L hne hg]
  have hsw : startsWithM dbRoot (cp (segJoin L)) = true := by
    unfold startsWithM
    have : (cp (segJoin L)).data = "/db".data ++ ('/' :: (segJoin L).data) := by
      show ("/db/" ++ segJoin L).data = _
      simp [data_append]
    rw [this]
    exact isPre_append_self _ _
  simp [dbRoot] at hsw
  simp [dbRoot, hsw]

theorem map_data_inj (L1 L2 : List String)
    (h : L1.map String.data = L2.map String.data) : L1 = L2 := by
  induction L1 generalizing L2 with
  | nil =>
      cases L2 with
      | nil => rfl
      | cons t ts => simp at h
  | cons s ss ih =>
      cases L2 with
      | nil => simp at h
      | cons t ts =>
          simp at h
          rw [strExt h.1, ih ts h.2]

theorem segJoin_inj (L1 L2 : List String) (hne1 : L1 ≠ []) (hne2 : L2 ≠ [])
    (hg1 : ∀ s ∈ L1, GoodSeg s) (hg2 : ∀ s ∈ L2, GoodSeg s)
    (h : segJoin L1 = segJoin L2) : L1 = L2 := by
  have hd := congrArg String.data h
  have h1 := splitSegs_segJoin L1 hne1 hg1
  have h2 := splitSegs_segJoin L2 hne2 hg2
  rw [hd] at h1
  exact map_data_inj L1 L2 (h1.symm.trans h2)

theorem cp_inj {p1 p2 : String} (h : cp p1 = cp p2) : p1 = p2 := by
  have hd := congrArg String.data h
  simp only [cp, data_append] at hd
  exact strExt (List.append_cancel_left hd)

theorem cp_join_inj (L1 L2 : List String) (hne1 : L1 ≠ []) (hne2 : L2 ≠ [])
    (hg1 : ∀ s ∈ L1, GoodSeg s) (hg2 : ∀ s ∈ L2, GoodSeg s)
    (h : cp (segJoin L1) = cp (segJoin L2)) : L1 = L2 :=
  segJoin_inj L1 L2 hne1 hne2 hg1 hg2 (cp_inj h)

theorem cp_ne_dbRoot (p : String) : cp p ≠ "/db" := by
  intro h
  have := congrArg (fun s => s.data.length) h
  simp [cp, data_append] at this

theorem filter_ne_nil_map_data (L : List String) (hg : ∀ s ∈ L, GoodSeg s) :
    (List.map String.data L).filter (fun x => decide (x ≠ [])) = List.map String.data L := by
  rw [List.filter_eq_self]
  intro a ha
  rcases List.mem_map.mp ha with ⟨t, ht, rfl⟩
  simpa using (goodSeg_chars (hg t ht)).1

theorem dirname_cp_single (s : String) (hg : GoodSeg s) :
    dirnameStr (cp (segJoin [s])) = "/db" := by
  unfold dirnameStr
  rw [splitSegs_cp [s] (by simp) (by simpa using hg)]
  simp
  decide

theorem dirname_cp_snoc (L : List String) (s : String) (hne : L ≠ [])
    (hg : ∀ x ∈ L ++ [s], GoodSeg x) :
    dirnameStr (cp (segJoin (L ++ [s]))) = cp (segJoin L) := by
  unfold dirnameStr
  rw [splitSegs_cp (L ++ [s]) (by simp) hg]
  have h1 : ([] : List Char) :: ['d', 'b'] :: List.map String.data (L ++ [s])
      = (([] : List Char) :: ['d', 'b'] :: List.map String.data L) ++ [s.data] := by
    simp
  rw [h1, List.dropLast_concat]
  have h2 : (([] : List Char) :: ['d', 'b'] :: List.map String.data L).filter
      (fun x => decide (x ≠ []))
      = ['d', 'b'] :: List.map String.data L := by
    simp only [List.filter_cons]
    rw [filter_ne_nil_map_data L (fun x hx => hg x (by simp [hx]))]
    simp
  rw [h2]
  cases hL : List.map String.data L with
  | nil => exact absurd (by simpa using hL) hne
  | cons a as =>
      rw [← hL]
      exact mkRender_db L hne

theorem natCharsAux_ne_nil (fuel n : Nat) : natCharsAux fuel n ≠ [] := by
  cases fuel with
  | zero => simp [natCharsAux]
  | succ m =>
      rw [natCharsAux]
      split <;> simp

theorem natChars_ne_nil (n : Nat) : natChars n ≠ [] := natCharsAux_ne_nil n n

theorem jsonOfVal_ne_nil (v : Val) : jsonOfVal v ≠ [] := by
  cases v with
  | str s => simp [jsonOfVal]
  | num n =>
      simp only [jsonOfVal, intChars]
      split
      · simp
      · exact natChars_ne_nil _
  | bool b => cases b <;> simp [jsonOfVal]
  | null => simp [jsonOfVal]

theorem hexDigit_good (n : Nat) (h : n < 16) :
    hexDigit n ≠ '/' ∧ hexDigit n ≠ '.' := by
  interval_cases n <;> exact ⟨by decide, by decide⟩

theorem mem_hexOfChar {x c : Char} (h : x ∈ hexOfChar c) :
    ∃ n, n < 16 ∧ x = hexDigit n := by
  simp [hexOfChar] at h
  rcases h with h | h | h | h | h | h <;>
    exact ⟨_, Nat.mod_lt _ (by norm_num), h⟩

theorem pathsafe_chars {x : Char} {v : Val} (h : x ∈ (pathsafe v).data) :
    x ≠ '/' ∧ x ≠ '.' := by
  simp only [pathsafe, data_mk] at h
  rcases List.mem_flatten.mp h with ⟨l, hl, hx⟩
  rcases List.mem_map.mp hl with ⟨c, _, rfl⟩
  rcases mem_hexOfChar hx with ⟨n, hn, rfl⟩
  exact hexDigit_good n hn

theorem pathsafe_ne_nil (v : Val) : (pathsafe v).data ≠ [] := by
  simp only [pathsafe, data_mk]
  intro h
  rcases List.exists_cons_of_ne_nil (jsonOfVal_ne_nil v) with ⟨c, rest, hc⟩
  rw [hc] at h
  simp [hexOfChar] at h

theorem goodSeg_pathsafe (v : Val) : GoodSeg (pathsafe v) := by
  refine ⟨pathsafe_ne_nil v, ?_, ?_, ?_⟩
  · intro h
    exact (pathsafe_chars h).1 rfl
  · intro h
    have : '.' ∈ (pathsafe v).data := by
      rw [h]
      simp [String.data]
    exact (pathsafe_chars this).2 rfl
  · intro h
    have : '.' ∈ (pathsafe v).data := by
      rw [h]
      simp [String.data]
    exact (pathsafe_chars this).2 rfl

theorem storageWrite_cacheEntries (root : String) (st : St) (p : String)
    (v : SVal) : ((storageWrite root st p v).1).cacheEntries = st.cacheEntries := by
  unfold storageWrite
  rcases hp : prefixRes root p with e | q <;> simp [hp] <;> split <;> rfl

theorem storageWrite_cacheProps (root : String) (st : St) (p : String)
    (v : SVal) : ((storageWrite root st p v).1).cacheProps = setA st.cacheProps p v := by
  unfold storageWrite
  rcases hp : prefixRes root p with e | q <;> simp [hp] <;> split <;> rfl

theorem storageWrite_snd_ok (L : List String) (hne : L ≠ [])
    (hg : ∀ s ∈ L, GoodSeg s) (st : St) (v : SVal) :
    (storageWrite dbRoot st (segJoin L) v).2 = none := by
  unfold storageWrite
  rw [prefixOkGood L hne hg]

theorem storageWrite_disk (L : List String) (hne : L ≠ [])
    (hg : ∀ s ∈ L, GoodSeg s) (st : St) (v : SVal) :
    ((storageWrite dbRoot st (segJoin L) v).1).disk
      = setA st.disk (cp (segJoin L)) v := by
  unfold storageWrite
  rw [prefixOkGood L hne hg]
  dsimp only
  split <;> rfl

theorem storageWrite_dirs (L : List String) (hne : L ≠ [])
    (hg : ∀ s ∈ L, GoodSeg s) (st : St) (v : SVal) (q : String)
    (hq : q ∈ ((storageWrite dbRoot st (segJoin L) v).1).dirs) :
    q ∈ st.dirs ∨ q = dirnameStr (cp (segJoin L)) := by
  unfold storageWrite at hq
  rw [prefixOkGood L hne hg] at hq
  dsimp only at hq
  rcases hsp : ((getA st.disk (dirnameStr (cp (segJoin L)))).isSome
      || st.dirs.contains (dirnameStr (cp (segJoin L)))) with h | h
  · rw [hsp] at hq
    simp at hq
    rcases hq with hq | hq
    · exact Or.inl hq
    · exact Or.inr hq
  · rw [hsp] at hq
    simp at hq
    exact Or.inl hq

theorem storageRead_good (L : List String) (hne : L ≠ [])
    (hg : ∀ s ∈ L, GoodSeg s) (st : St)
    (hc : segJoin L ∉ st.cacheEntries) :
    storageRead dbRoot st (segJoin L) = .ok (getA st.disk (cp (segJoin L))) := by
  unfold storageRead
  rw [if_neg hc, prefixOkGood L hne hg]

theorem storageExistsB_good (L : List String) (hne : L ≠ [])
    (hg : ∀ s ∈ L, GoodSeg s) (st : St)
    (hc : segJoin L ∉ st.cacheEntries) :
    storageExistsB dbRoot st (segJoin L)
      = .ok ((getA st.disk (cp (segJoin L))).isSome
          || st.dirs.contains (cp (segJoin L))) := by
  unfold storageExistsB
  rw [if_neg hc, prefixOkGood L hne hg]

theorem storageRemove_good (L : List String) (hne : L ≠ [])
    (hg : ∀ s ∈ L, GoodSeg s) (st : St) (hce : st.cacheEntries = []) :
    storageRemove dbRoot st (segJoin L)
      = (if (getA st.disk (cp (segJoin L))).isSome
            || st.dirs.contains (cp (segJoin L))
         then { st with disk := eraseA st.disk (cp (segJoin L)),
                        dirs := st.dirs.erase (cp (segJoin L)) }
         else st, none) := by
  obtain ⟨sd, sdr, scp, sce⟩ := st
  simp only at hce
  subst hce
  unfold storageRemove storageExistsB
  simp only [prefixOkGood L hne hg, List.erase_nil]
  cases hb : ((getA sd (cp (segJoin L))).isSome || sdr.contains (cp (segJoin L))) <;>
    simp [hb]

theorem goodL_dataPath {cn u : String} (hc : GoodSeg cn) (hu : GoodSeg u) :
    ∀ s ∈ ["data", cn, u], GoodSeg s := by
  intro s hs
  simp at hs
  rcases hs with rfl | rfl | rfl
  · decide
  · exact hc
  · exact hu

theorem goodL_indexPath {cn k : String} (v : Val) (hc : GoodSeg cn)
    (hk : GoodSeg k) : ∀ s ∈ ["index", cn, k, pathsafe v], GoodSeg s := by
  intro s hs
  simp at hs
  rcases hs with rfl | rfl | rfl | rfl
  · decide
  · exact hc
  · exact hk
  · exact goodSeg_pathsafe v

theorem cp_join_ne_of_length (L1 L2 : List String) (hne1 : L1 ≠ [])
    (hne2 : L2 ≠ []) (hg1 : ∀ s ∈ L1, GoodSeg s) (hg2 : ∀ s ∈ L2, GoodSeg s)
    (hlen : L1.length ≠ L2.length) : cp (segJoin L1) ≠ cp (segJoin L2) := by
  intro h
  exact hlen (congrArg List.length (cp_join_inj L1 L2 hne1 hne2 hg1 hg2 h))

theorem cp_dataPath_ne_indexPath {cn u k : String} {v : Val} (hc : GoodSeg cn)
    (hu : GoodSeg u) (hk : GoodSeg k) :
    cp (dataPath cn u) ≠ cp (indexPath cn k v) :=
  cp_join_ne_of_length ["data", cn, u] ["index", cn, k, pathsafe v]
    (by simp) (by simp) (goodL_dataPath hc hu) (goodL_indexPath v hc hk)
    (by simp)

theorem cp_dataPath_inj {cn u1 u2 : String} (hc : GoodSeg cn)
    (hu1 : GoodSeg u1) (hu2 : GoodSeg u2)
    (h : cp (dataPath cn u1) = cp (dataPath cn u2)) : u1 = u2 := by
  have := cp_join_inj ["data", cn, u1] ["data", cn, u2] (by simp) (by simp)
    (goodL_dataPath hc hu1) (goodL_dataPath hc hu2) h
  simpa using this

theorem cp_indexPath_inj {cn k1 k2 : String} {v1 v2 : Val} (hc : GoodSeg cn)
    (hk1 : GoodSeg k1) (hk2 : GoodSeg k2)
    (h : cp (indexPath cn k1 v1) = cp (indexPath cn k2 v2)) :
    k1 = k2 ∧ pathsafe v1 = pathsafe v2 := by
  have := cp_join_inj ["index", cn, k1, pathsafe v1]
    ["index", cn, k2, pathsafe v2] (by simp) (by simp)
    (goodL_indexPath v1 hc hk1) (goodL_indexPath v2 hc hk2) h
  simp at this
  exact ⟨this.1, this.2⟩

theorem cp_indexPath_ne_of_key {cn k1 k2 : String} {v1 v2 : Val}
    (hc : GoodSeg cn) (hk1 : GoodSeg k1) (hk2 : GoodSeg k2) (hne : k1 ≠ k2) :
    cp (indexPath cn k1 v1) ≠ cp (indexPath cn k2 v2) := by
  intro h
  exact hne (cp_indexPath_inj hc hk1 hk2 h).1

theorem dirname_cp_dataPath {cn u : String} (hc : GoodSeg cn) (hu : GoodSeg u) :
    dirnameStr (cp (dataPath cn u)) = cp (segJoin ["data", cn]) :=
  dirname_cp_snoc ["data", cn] u (by simp) (goodL_dataPath hc hu)

theorem dirname_cp_indexPath {cn k : String} (v : Val) (hc : GoodSeg cn)
    (hk : GoodSeg k) :
    dirnameStr (cp (indexPath cn k v)) = cp (segJoin ["index", cn, k]) :=
  dirname_cp_snoc ["index", cn, k] (pathsafe v) (by simp)
    (goodL_indexPath v hc hk)

theorem goodL_two {a cn : String} (ha : GoodSeg a) (hc : GoodSeg cn) :
    ∀ s ∈ [a, cn], GoodSeg s := by
  intro s hs
  simp at hs
  rcases hs with rfl | rfl
  · exact ha
  · exact hc

theorem goodL_three {a cn k : String} (ha : GoodSeg a) (hc : GoodSeg cn)
    (hk : GoodSeg k) : ∀ s ∈ [a, cn, k], GoodSeg s := by
  intro s hs
  simp at hs
  rcases hs with rfl | rfl | rfl
  · exact ha
  · exact hc
  · exact hk

theorem dirname_dataPath_ne_indexPath {cn u k : String} {v : Val}
    (hc : GoodSeg cn) (hu : GoodSeg u) (hk : GoodSeg k) :
    dirnameStr (cp (dataPath cn u)) ≠ cp (indexPath cn k v) := by
  rw [dirname_cp_dataPath hc hu]
  exact cp_join_ne_of_length ["data", cn] ["index", cn, k, pathsafe v]
    (by simp) (by simp) (goodL_two (by decide) hc)
    (goodL_indexPath v hc hk) (by simp)

theorem dirname_indexPath_ne_indexPath {cn k0 k : String} {v0 v : Val}
    (hc : GoodSeg cn) (hk0 : GoodSeg k0) (hk : GoodSeg k) :
    dirnameStr (cp (indexPath cn k0 v0)) ≠ cp (indexPath cn k v) := by
  rw [dirname_cp_indexPath v0 hc hk0]
  exact cp_join_ne_of_length ["index", cn, k0] ["index", cn, k, pathsafe v]
    (by simp) (by simp) (goodL_three (by decide) hc hk0)
    (goodL_indexPath v hc hk) (by simp)

theorem dirname_dataPath_ne_dataPath {cn u u' : String}
    (hc : GoodSeg cn) (hu : GoodSeg u) (hu' : GoodSeg u') :
    dirnameStr (cp (dataPath cn u)) ≠ cp (dataPath cn u') := by
  rw [dirname_cp_dataPath hc hu]
  exact cp_join_ne_of_length ["data", cn] ["data", cn, u']
    (by simp) (by simp) (goodL_two (by decide) hc)
    (goodL_dataPath hc hu') (by simp)

theorem dirname_indexPath_ne_dataPath {cn k u : String} {v : Val}
    (hc : GoodSeg cn) (hk : GoodSeg k) (hu : GoodSeg u) :
    dirnameStr (cp (indexPath cn k v)) ≠ cp (dataPath cn u) := by
  rw [dirname_cp_indexPath v hc hk]
  intro h
  have := cp_join_inj ["index", cn, k] ["data", cn, u] (by simp) (by simp)
    (goodL_three (by decide) hc hk) (goodL_dataPath hc hu) h
  have hh := congrArg (fun l => l.headI) this
  simp at hh

theorem createFields_state (c : Coll) (root : String) (st : St) (fid : String) :
    ∀ (l : List (String × FieldDesc)) (d : Doc),
    (createFields c root st fid l d).1 = st := by
  intro l
  induction l with
  | nil => intro d; rfl
  | cons kfd rest ih =>
      intro d
      obtain ⟨k, fd⟩ := kfd
      simp only [createFields]
      repeat' split
      all_goals first | rfl | exact ih _

/-- C5: Collection.create performs no storage mutation: the storage state
is the same before and after create, whether it returns the assembled
document or throws a missing-required-field or unique-constraint error. -/
theorem create_never_writes_storage (c : Coll) (root : String) (st : St)
    (freshId : String) (data : Doc) :
    (Coll.create c root st freshId data).1 = st :=
  createFields_state c root st freshId c.schema data

/-- C4: the path-escape guard is a string-prefix test on the canonical
path, so the logical path "../db2" under root "/db" resolves to the
sibling directory "/db2" — outside the root — yet every storage
operation accepts it: read returns the outside file's content, write and
makedir report no error, exists sees the outside file, list succeeds,
and remove deletes the outside file, none of them failing with the
path-escape error the claim requires. -/
theorem sibling_escape_passes_path_guard :
    prefixRes "/db" "../db2" = .ok "/db2"
    ∧ underRoot "/db" "/db2" = false
    ∧ storageRead "/db" ⟨[("/db2", .prim (.str "secret"))], [], [], []⟩ "../db2"
        = .ok (some (.prim (.str "secret")))
    ∧ (storageWrite "/db" ⟨[("/db2", .prim (.str "secret"))], [], [], []⟩
        "../db2" (.prim .null)).2 = none
    ∧ storageExistsB "/db" ⟨[("/db2", .prim (.str "secret"))], [], [], []⟩
        "../db2" = .ok true
    ∧ storageRemove "/db" ⟨[("/db2", .prim (.str "secret"))], [], [], []⟩
        "../db2" = (⟨[], [], [], []⟩, none)
    ∧ storageList "/db" ⟨[("/db2", .prim (.str "secret"))], [], [], []⟩
        "../db2" = .ok (some [])
    ∧ (storageMakedir "/db" ⟨[("/db2", .prim (.str "secret"))], [], [], []⟩
        "../db2").2 = none := by
  decide

theorem cacheClearTick_of_empty (st : St) (h : st.cacheEntries = []) :
    cacheClearTick st = st := by
  unfold cacheClearTick
  rw [h]
  simp

theorem writeSeq_cacheEntries (root : String) (v : SVal) :
    ∀ (ps : List String) (st : St),
    (writeSeq root ps v st).cacheEntries = st.cacheEntries := by
  intro ps
  induction ps with
  | nil => intro st; rfl
  | cons p rest ih =>
      intro st
      show (writeSeq root rest v ((storageWrite root st p v).1)).cacheEntries = _
      rw [ih, storageWrite_cacheEntries]

theorem writeSeq_props_length (root : String) (v : SVal) :
    ∀ (ps : List String) (st : St), (∀ p ∈ ps, p ∉ keysA st.cacheProps) →
    ps.Nodup →
    (writeSeq root ps v st).cacheProps.length
      = st.cacheProps.length + ps.length := by
  intro ps
  induction ps with
  | nil => intro st _ _; rfl
  | cons p rest ih =>
      intro st h1 h2
      have hp : p ∉ keysA st.cacheProps := h1 p (by simp)
      have hstep : ((storageWrite root st p v).1).cacheProps
          = setA st.cacheProps p v := storageWrite_cacheProps root st p v
      have hkeys : keysA (((storageWrite root st p v).1).cacheProps)
          = keysA st.cacheProps ++ [p] := by
        rw [hstep, keysA_setA_fresh _ _ _ hp]
      have hrest : ∀ q ∈ rest, q ∉ keysA (((storageWrite root st p v).1).cacheProps) := by
        intro q hq
        rw [hkeys]
        simp
        constructor
        · exact h1 q (by simp [hq])
        · intro hqp
          subst hqp
          exact absurd hq (List.nodup_cons.mp h2).1
      show (writeSeq root rest v ((storageWrite root st p v).1)).cacheProps.length = _
      rw [ih _ hrest (List.nodup_cons.mp h2).2, hstep,
        length_setA_fresh _ _ _ hp]
      simp
      omega

theorem c8Keys_nodup : c8Keys.Nodup := by
  have hinj : Function.Injective (fun i => String.mk (List.replicate (i + 1) 'a')) := by
    intro i j h
    have hd := congrArg (fun s => s.data.length) h
    simpa using hd
  exact List.Nodup.map hinj (List.nodup_range 10001)

theorem c8Keys_length : c8Keys.length = 10001 := by
  simp [c8Keys]

/-- C8: the eviction interval only ever measures and deletes real Map
entries, but storage.write stores values as plain object properties, so
the Map stays empty, eviction never fires, and after 10001 writes of
distinct keys the resident cache set holds 10001 entries — beyond the
10000 bound the claim asserts. -/
theorem cache_grows_past_bound_after_tick :
    cacheClearTick (writeSeq "/db" c8Keys (.prim .null) initSt)
      = writeSeq "/db" c8Keys (.prim .null) initSt
    ∧ 10000 < (writeSeq "/db" c8Keys (.prim .null) initSt).cacheProps.length := by
  constructor
  · exact cacheClearTick_of_empty _ (by rw [writeSeq_cacheEntries]; rfl)
  · rw [writeSeq_props_length "/db" (.prim .null) c8Keys initSt
      (by intro p hp; simp [initSt, keysA]) c8Keys_nodup, c8Keys_length]
    norm_num [initSt]

/-- C9: because storage.write assigns cache[path] as a plain property
rather than a Map entry, the Map.has test in read and exists never
succeeds in any state reachable from a fresh engine (whose Map is empty
and is never added to by any operation): reads and existence checks
coincide with the same engine without a cache, and every operation
preserves the empty Map. -/
theorem cache_never_serves_storage_requests (root path : String) (st : St)
    (h : st.cacheEntries = []) :
    storageRead root st path = readNC root st.disk path
    ∧ storageExistsB root st path = existsNCB root st.disk st.dirs path
    ∧ (∀ v, ((storageWrite root st path v).1).cacheEntries = [])
    ∧ ((storageRemove root st path).1).cacheEntries = []
    ∧ ((storageMakedir root st path).1).cacheEntries = []
    ∧ (cacheClearTick st).cacheEntries = []
    ∧ initSt.cacheEntries = [] := by
  refine ⟨?_, ?_, ?_, ?_, ?_, ?_, rfl⟩
  · unfold storageRead readNC
    rw [h]
    simp
  · unfold storageExistsB existsNCB
    rw [h]
    simp
  · intro v
    rw [storageWrite_cacheEntries, h]
  · unfold storageRemove
    rcases hp : prefixRes root path with e | q
    · simp [h]
    · unfold storageExistsB
      simp [h]
      split <;> simp
  · unfold storageMakedir
    rcases hp : prefixRes root path with e | q
    · simp [h]
    · simp [h]
      split <;> simp [h]
  · rw [cacheClearTick_of_empty st h, h]

theorem cache_never_serves_storage_requests_case :
    storageRead "/db" stC9 "x" = readNC "/db" stC9.disk "x"
    ∧ ((storageRemove "/db" stC9 "x").1).cacheEntries = [] := by
  have h := cache_never_serves_storage_requests "/db" "x" stC9 rfl
  exact ⟨h.1, h.2.2.2.1⟩

theorem resolveField_untouched (fd : FieldDesc) (k : String) (d : Doc)
    (k' : String) (h : k' ≠ k) :
    getA (resolveField fd k d).1 k' = getA d k' := by
  unfold resolveField
  repeat' split
  all_goals first | rfl | exact getA_setA_ne _ _ _ _ h

theorem createFields_cons_id (c : Coll) (root : String) (st : St)
    (fid : String) (fd : FieldDesc) (rest : List (String × FieldDesc))
    (d : Doc) :
    createFields c root st fid (("id", fd) :: rest) d
      = createFields c root st fid rest (setA d "id" (.str fid)) := by
  simp [createFields]

theorem createFields_cons_ne (c : Coll) (root : String) (st : St)
    (fid : String) (k0 : String) (fd : FieldDesc)
    (rest : List (String × FieldDesc)) (d : Doc) (h : k0 ≠ "id") :
    createFields c root st fid ((k0, fd) :: rest) d
      = (match resolveField fd k0 d with
         | (d1, some e) => (st, d1, .error e)
         | (d1, none) =>
             if fd.unique then
               match getA d1 k0 with
               | none => (st, d1, .error .typeError)
               | some v =>
                   match Coll.findOne c root st [(k0, v)] with
                   | .error e => (st, d1, .error e)
                   | .ok (some _) => (st, d1, .error .uniqueViolation)
                   | .ok none => createFields c root st fid rest d1
             else createFields c root st fid rest d1) := by
  simp [createFields, h]

theorem createFields_untouched (c : Coll) (root : String) (st : St)
    (fid : String) :
    ∀ (l : List (String × FieldDesc)) (d : Doc) (k : String), k ∉ keysA l →
    getA (createFields c root st fid l d).2.1 k = getA d k := by
  intro l
  induction l with
  | nil => intro d k _; rfl
  | cons kfd rest ih =>
      intro d k hk
      obtain ⟨k0, fd⟩ := kfd
      rw [keysA_cons] at hk
      have h1 : k ≠ k0 := fun hh => hk (hh ▸ List.mem_cons_self _ _)
      have h2 : k ∉ keysA rest := fun hh => hk (List.mem_cons_of_mem _ hh)
      by_cases hk0 : k0 = "id"
      · subst hk0
        rw [createFields_cons_id]
        exact (ih (setA d "id" (.str fid)) k h2).trans
          (getA_setA_ne d "id" k (.str fid) h1)
      · rw [createFields_cons_ne c root st fid k0 fd rest d hk0]
        have hd1 : getA (resolveField fd k0 d).1 k = getA d k :=
          resolveField_untouched fd k0 d k h1
        cases hr : resolveField fd k0 d with
        | mk d1 oe =>
            rw [hr] at hd1
            dsimp only at hd1
            cases oe with
            | some e => exact hd1
            | none =>
                dsimp only
                cases hu : fd.unique
                · simp only [Bool.false_eq_true, if_false]
                  exact (ih d1 k h2).trans hd1
                · simp only [eq_self_iff_true, if_true]
                  cases hg : getA d1 k0 with
                  | none => exact hd1
                  | some v =>
                      dsimp only
                      cases hf : Coll.findOne c root st [(k0, v)] with
                      | error e => exact hd1
                      | ok o =>
                          cases o with
                          | some x => exact hd1
                          | none => exact (ih d1 k h2).trans hd1

theorem createFields_id (c : Coll) (root : String) (st : St) (fid : String) :
    ∀ (l : List (String × FieldDesc)) (d d' : Doc),
    "id" ∈ keysA l → (keysA l).Nodup →
    createFields c root st fid l d = (st, d', .ok ()) →
    getA d' "id" = some (.str fid) := by
  intro l
  induction l with
  | nil =>
      intro d d' hin _ _
      simp [keysA] at hin
  | cons kfd rest ih =>
      intro d d' hin hnd hrun
      obtain ⟨k0, fd⟩ := kfd
      rw [keysA_cons] at hin hnd
      by_cases hk0 : k0 = "id"
      · subst hk0
        rw [createFields_cons_id] at hrun
        have hnotin : "id" ∉ keysA rest := (List.nodup_cons.mp hnd).1
        have huntouched := createFields_untouched c root st fid rest
          (setA d "id" (.str fid)) "id" hnotin
        rw [hrun] at huntouched
        dsimp only at huntouched
        rw [huntouched, getA_setA_self]
      · have hin' : "id" ∈ keysA rest := by
          rcases List.mem_cons.mp hin with h | h
          · exact absurd h.symm hk0
          · exact h
        rw [createFields_cons_ne c root st fid k0 fd rest d hk0] at hrun
        cases hr : resolveField fd k0 d with
        | mk d1 oe =>
            rw [hr] at hrun
            cases oe with
            | some e => simp at hrun
            | none =>
                dsimp only at hrun
                cases hu : fd.unique
                · rw [hu] at hrun
                  simp only [Bool.false_eq_true, if_false] at hrun
                  exact ih d1 d' hin' (List.nodup_cons.mp hnd).2 hrun
                · rw [hu] at hrun
                  simp only [eq_self_iff_true, if_true] at hrun
                  cases hg : getA d1 k0 with
                  | none =>
                      rw [hg] at hrun
                      simp at hrun
                  | some v =>
                      rw [hg] at hrun
                      dsimp only at hrun
                      cases hf : Coll.findOne c root st [(k0, v)] with
                      | error e =>
                          rw [hf] at hrun
                          simp at hrun
                      | ok o =>
                          rw [hf] at hrun
                          cases o with
                          | some x => simp at hrun
                          | none =>
                              dsimp only at hrun
                              exact ih d1 d' hin' (List.nodup_cons.mp hnd).2 hrun

theorem createFields_append (c : Coll) (root : String) (st : St)
    (fid : String) :
    ∀ (l1 l2 : List (String × FieldDesc)) (d : Doc),
    createFields c root st fid (l1 ++ l2) d
      = (match createFields c root st fid l1 d with
         | (_, d1, .ok _) => createFields c root st fid l2 d1
         | (s1, d1, .error e) => (s1, d1, .error e)) := by
  intro l1
  induction l1 with
  | nil => intro l2 d; rfl
  | cons kfd rest ih =>
      intro l2 d
      obtain ⟨k0, fd⟩ := kfd
      by_cases hk0 : k0 = "id"
      · subst hk0
        show createFields c root st fid (("id", fd) :: (rest ++ l2)) d = _
        rw [createFields_cons_id, createFields_cons_id]
        exact ih l2 (setA d "id" (.str fid))
      · show createFields c root st fid ((k0, fd) :: (rest ++ l2)) d = _
        rw [createFields_cons_ne c root st fid k0 fd (rest ++ l2) d hk0,
          createFields_cons_ne c root st fid k0 fd rest d hk0]
        cases hr : resolveField fd k0 d with
        | mk d1 oe =>
            cases oe with
            | some e => rfl
            | none =>
                dsimp only
                cases hu : fd.unique
                · simp only [Bool.false_eq_true, if_false]
                  exact ih l2 d1
                · simp only [eq_self_iff_true, if_true]
                  cases hg : getA d1 k0 with
                  | none => rfl
                  | some v =>
                      dsimp only
                      cases hf : Coll.findOne c root st [(k0, v)] with
                      | error e => rfl
                      | ok o =>
                          cases o with
                          | some x => rfl
                          | none => exact ih l2 d1

/-- C10: Collection.create mutates its input object in place.  When the
schema splits as l1 ++ l2 with the id field in l1, create succeeding on
l1 and then throwing in l2 leaves the caller's object carrying the
freshly generated id and every value (including resolved defaults)
assigned during the l1 phase. -/
theorem create_mutations_survive_thrown_error (c : Coll) (st : St)
    (freshId : String) (data d1 d' : Doc) (l1 l2 : List (String × FieldDesc))
    (e : Err)
    (hschema : c.schema = l1 ++ l2)
    (hnodup : (keysA c.schema).Nodup)
    (hid : "id" ∈ keysA l1)
    (h1 : createFields c dbRoot st freshId l1 data = (st, d1, .ok ()))
    (h2 : createFields c dbRoot st freshId l2 d1 = (st, d', .error e)) :
    Coll.create c dbRoot st freshId data = (st, d', .error e)
    ∧ getA d' "id" = some (.str freshId)
    ∧ ∀ k, k ∉ keysA l2 → getA d' k = getA d1 k := by
  have hkeys : keysA c.schema = keysA l1 ++ keysA l2 := by
    rw [hschema]
    simp [keysA]
  rw [hkeys] at hnodup
  have hnd1 : (keysA l1).Nodup := (List.nodup_append.mp hnodup).1
  have hdisj : "id" ∉ keysA l2 := (List.nodup_append.mp hnodup).2.2 hid
  refine ⟨?_, ?_, ?_⟩
  · show createFields c dbRoot st freshId c.schema data = _
    rw [hschema, createFields_append c dbRoot st freshId l1 l2 data, h1]
    exact h2
  · have huntouched := createFields_untouched c dbRoot st freshId l2 d1
      "id" hdisj
    rw [h2] at huntouched
    dsimp only at huntouched
    rw [huntouched]
    exact createFields_id c dbRoot st freshId l1 data d1 hid hnd1 h1
  · intro k hk
    have huntouched := createFields_untouched c dbRoot st freshId l2 d1 k hk
    rw [h2] at huntouched
    dsimp only at huntouched
    exact huntouched

theorem create_mutations_survive_thrown_error_case :
    Coll.create cW10 dbRoot initSt "u9" []
      = (initSt, [("id", Val.str "u9")], .error .missingRequired)
    ∧ getA [(("id" : String), Val.str "u9")] "id" = some (.str "u9") := by
  have h := create_mutations_survive_thrown_error cW10 initSt "u9" []
    [("id", Val.str "u9")] [("id", Val.str "u9")]
    [("id", idDesc)] [("username", { required := true })] .missingRequired
    (by decide) (by decide) (by decide) (by decide) (by decide)
  exact ⟨h.1, h.2.1⟩

theorem gatherCands_cons (c : Coll) (root : String) (st : St) (k : String)
    (v : Val) (restq : Doc) (acc : List String) :
    gatherCands c root st ((k, v) :: restq) acc
      = (if k = "id" then gatherCands c root st restq acc
         else match getA c.schema k with
           | none => gatherCands c root st restq acc
           | some fd =>
               if fd.index then
                 match storageExistsB root st (indexPath c.name k v) with
                 | .error e => .error e
                 | .ok false => gatherCands c root st restq acc
                 | .ok true =>
                     match storageRead root st (indexPath c.name k v) with
                     | .error e => .error e
                     | .ok content =>
                         gatherCands c root st restq
                           (if fd.unique then addCands acc (uniqueCand content)
                            else addCands acc (idsCand content))
               else gatherCands c root st restq acc) := rfl

theorem gatherCands_skip_nonindexed (c : Coll) (st : St) (k : String)
    (v : Val) (hni : notIndexed c k = true) :
    ∀ (q1 q2 : Doc) (acc : List String),
    gatherCands c dbRoot st (q1 ++ (k, v) :: q2) acc
      = gatherCands c dbRoot st (q1 ++ q2) acc := by
  intro q1
  induction q1 with
  | nil =>
      intro q2 acc
      simp only [List.nil_append]
      rw [gatherCands_cons]
      by_cases hk : k = "id"
      · rw [if_pos hk]
      · rw [if_neg hk]
        unfold notIndexed at hni
        cases hgs : getA c.schema k with
        | none => rfl
        | some fd =>
            rw [hgs] at hni
            have hidx : fd.index = false := by simpa using hni
            dsimp only
            rw [hidx]
            simp only [Bool.false_eq_true, if_false]
  | cons kv1 rest ih =>
      intro q2 acc
      obtain ⟨k1, v1⟩ := kv1
      simp only [List.cons_append]
      rw [gatherCands_cons, gatherCands_cons]
      by_cases hk1 : k1 = "id"
      · rw [if_pos hk1, if_pos hk1]
        exact ih q2 acc
      · rw [if_neg hk1, if_neg hk1]
        cases hgs : getA c.schema k1 with
        | none => exact ih q2 acc
        | some fd =>
            dsimp only
            cases hidx : fd.index
            · simp only [Bool.false_eq_true, if_false]
              exact ih q2 acc
            · simp only [eq_self_iff_true, if_true]
              cases hex : storageExistsB dbRoot st (indexPath c.name k1 v1) with
              | error e => rfl
              | ok b =>
                  cases b
                  · dsimp only
                    exact ih q2 acc
                  · dsimp only
                    cases hrd : storageRead dbRoot st (indexPath c.name k1 v1) with
                    | error e => rfl
                    | ok content => exact ih q2 _

theorem firstMatch_all_match (c : Coll) (root : String) (st : St) (q : Doc) :
    ∀ (cands : List String) (obj : Doc),
    firstMatch c root st q cands = .ok (some obj) → matchesQ q obj = true := by
  intro cands
  induction cands with
  | nil =>
      intro obj h
      simp [firstMatch] at h
  | cons u rest ih =>
      intro obj h
      simp only [firstMatch] at h
      cases hr : storageRead root st (dataPath c.name u) with
      | error e =>
          rw [hr] at h
          simp at h
      | ok o =>
          rw [hr] at h
          dsimp only at h
          cases hcd : candDoc o with
          | error e =>
              rw [hcd] at h
              simp at h
          | ok od =>
              rw [hcd] at h
              cases od with
              | none =>
                  dsimp only at h
                  exact ih obj h
              | some dd =>
                  dsimp only at h
                  cases hm : matchesQ q dd
                  · rw [hm] at h
                    simp only [Bool.false_eq_true, if_false] at h
                    exact ih obj h
                  · rw [hm] at h
                    simp only [eq_self_iff_true, if_true] at h
                    simp at h
                    rw [← h]
                    exact hm

theorem matchesQ_mem {q obj : Doc} (h : matchesQ q obj = true) :
    ∀ kv ∈ q, getA obj kv.1 = some kv.2 := by
  intro kv hkv
  have := List.all_eq_true.mp h kv hkv
  simpa using this

/-- C7 amended: a queried field with no indexed schema entry is ignored
for candidate narrowing, but the final equality pass checks every
queried field (indexed or not): any document findOne returns matches all
query bindings exactly. -/
theorem nonindexed_ignored_for_narrowing_but_filtered
    (c : Coll) (st : St) (k : String) (v : Val) (q1 q2 q : Doc)
    (acc : List String) (obj : Doc)
    (hni : notIndexed c k = true) :
    gatherCands c dbRoot st (q1 ++ (k, v) :: q2) acc
      = gatherCands c dbRoot st (q1 ++ q2) acc
    ∧ (Coll.findOne c dbRoot st q = .ok (some obj) →
        ∀ kv ∈ q, getA obj kv.1 = some kv.2) := by
  constructor
  · exact gatherCands_skip_nonindexed c st k v hni q1 q2 acc
  · intro hf kv hkv
    unfold Coll.findOne at hf
    cases hg : gatherCands c dbRoot st q [] with
    | error e =>
        rw [hg] at hf
        simp at hf
    | ok cands =>
        rw [hg] at hf
        exact matchesQ_mem (firstMatch_all_match c dbRoot st q cands obj hf)
          kv hkv

theorem nonindexed_ignored_for_narrowing_but_filtered_case :
    gatherCands cC7 dbRoot stC7 ([("a", Val.num 1)] ++ ("b", Val.num 99) :: []) []
      = gatherCands cC7 dbRoot stC7 ([("a", Val.num 1)] ++ []) []
    ∧ (∀ kv ∈ [(("a" : String), Val.num 1)], getA dC7 kv.1 = some kv.2) := by
  have h := nonindexed_ignored_for_narrowing_but_filtered cC7 stC7 "b"
    (Val.num 99) [("a", Val.num 1)] [] [("a", Val.num 1)] [] dC7 (by decide)
  exact ⟨h.1, h.2 (by decide)⟩

/-- C7 counterexample: with indexed a and non-indexed b, the document
(a = 1, b = 2) is the narrowed candidate for the query (a = 1, b = 99),
and the claim as stated would accept it on the indexed field alone; the
code's final pass compares b as well and returns absent. -/
theorem findOne_filters_on_nonindexed_field :
    notIndexed cC7 "b" = true
    ∧ gatherCands cC7 dbRoot stC7 [("a", .num 1), ("b", .num 99)] []
        = .ok ["u1"]
    ∧ Coll.get cC7 dbRoot stC7 "u1" = .ok (some (.doc dC7))
    ∧ getA dC7 "a" = some (.num 1)
    ∧ getA dC7 "b" = some (.num 2)
    ∧ Coll.findOne cC7 dbRoot stC7 [("a", .num 1), ("b", .num 99)]
        = .ok none := by
  decide

/-- C3 counterexample: the id field is indexed in every schema, yet both
write and the query layer skip it — no id index entry is written and
findOne gathers no candidates for an id-only query — so immediately
after write(d), findOne on the id field returns absent instead of a
document with the written id. -/
theorem findOne_on_id_returns_absent :
    (Coll.write cC3 dbRoot initSt dC3).2 = none
    ∧ Coll.get cC3 dbRoot (Coll.write cC3 dbRoot initSt dC3).1 "u1"
        = .ok (some (.doc dC3))
    ∧ getA cC3.schema "id" = some idDesc
    ∧ Coll.findOne cC3 dbRoot (Coll.write cC3 dbRoot initSt dC3).1
        [("id", .str "u1")] = .ok none := by
  decide

theorem sw_ip_snd (cn k : String) (v : Val) (w : SVal) (hc : GoodSeg cn)
    (hk : GoodSeg k) (st : St) :
    (storageWrite dbRoot st (indexPath cn k v) w).2 = none :=
  storageWrite_snd_ok ["index", cn, k, pathsafe v] (by simp)
    (goodL_indexPath v hc hk) st w

theorem sw_ip_disk (cn k : String) (v : Val) (w : SVal) (hc : GoodSeg cn)
    (hk : GoodSeg k) (st : St) :
    ((storageWrite dbRoot st (indexPath cn k v) w).1).disk
      = setA st.disk (cp (indexPath cn k v)) w :=
  storageWrite_disk ["index", cn, k, pathsafe v] (by simp)
    (goodL_indexPath v hc hk) st w

theorem sw_ip_dirs (cn k : String) (v : Val) (w : SVal) (hc : GoodSeg cn)
    (hk : GoodSeg k) (st : St) (q : String)
    (hq : q ∈ ((storageWrite dbRoot st (indexPath cn k v) w).1).dirs) :
    q ∈ st.dirs ∨ q = dirnameStr (cp (indexPath cn k v)) :=
  storageWrite_dirs ["index", cn, k, pathsafe v] (by simp)
    (goodL_indexPath v hc hk) st w q hq

theorem sw_dp_snd (cn u : String) (w : SVal) (hc : GoodSeg cn)
    (hu : GoodSeg u) (st : St) :
    (storageWrite dbRoot st (dataPath cn u) w).2 = none :=
  storageWrite_snd_ok ["data", cn, u] (by simp) (goodL_dataPath hc hu) st w

theorem sw_dp_disk (cn u : String) (w : SVal) (hc : GoodSeg cn)
    (hu : GoodSeg u) (st : St) :
    ((storageWrite dbRoot st (dataPath cn u) w).1).disk
      = setA st.disk (cp (dataPath cn u)) w :=
  storageWrite_disk ["data", cn, u] (by simp) (goodL_dataPath hc hu) st w

theorem sw_dp_dirs (cn u : String) (w : SVal) (hc : GoodSeg cn)
    (hu : GoodSeg u) (st : St) (q : String)
    (hq : q ∈ ((storageWrite dbRoot st (dataPath cn u) w).1).dirs) :
    q ∈ st.dirs ∨ q = dirnameStr (cp (dataPath cn u)) :=
  storageWrite_dirs ["data", cn, u] (by simp) (goodL_dataPath hc hu) st w q hq

theorem sr_ip_good (cn k : String) (v : Val) (hc : GoodSeg cn)
    (hk : GoodSeg k) (st : St) (hce : st.cacheEntries = []) :
    storageRead dbRoot st (indexPath cn k v)
      = .ok (getA st.disk (cp (indexPath cn k v))) :=
  storageRead_good ["index", cn, k, pathsafe v] (by simp)
    (goodL_indexPath v hc hk) st (by simp [hce])

theorem sr_dp_good (cn u : String) (hc : GoodSeg cn) (hu : GoodSeg u)
    (st : St) (hce : st.cacheEntries = []) :
    storageRead dbRoot st (dataPath cn u)
      = .ok (getA st.disk (cp (dataPath cn u))) :=
  storageRead_good ["data", cn, u] (by simp) (goodL_dataPath hc hu) st
    (by simp [hce])

theorem se_ip_good (cn k : String) (v : Val) (hc : GoodSeg cn)
    (hk : GoodSeg k) (st : St) (hce : st.cacheEntries = []) :
    storageExistsB dbRoot st (indexPath cn k v)
      = .ok ((getA st.disk (cp (indexPath cn k v))).isSome
          || st.dirs.contains (cp (indexPath cn k v))) :=
  storageExistsB_good ["index", cn, k, pathsafe v] (by simp)
    (goodL_indexPath v hc hk) st (by simp [hce])

theorem srm_snd (L : List String) (hne : L ≠ []) (hg : ∀ s ∈ L, GoodSeg s)
    (st : St) (hce : st.cacheEntries = []) :
    (storageRemove dbRoot st (segJoin L)).2 = none := by
  rw [storageRemove_good L hne hg st hce]

theorem srm_entries (L : List String) (hne : L ≠ [])
    (hg : ∀ s ∈ L, GoodSeg s) (st : St) (hce : st.cacheEntries = []) :
    ((storageRemove dbRoot st (segJoin L)).1).cacheEntries = [] := by
  rw [storageRemove_good L hne hg st hce]
  split <;> simp [hce]

theorem srm_disk_ne (L : List String) (hne : L ≠ [])
    (hg : ∀ s ∈ L, GoodSeg s) (st : St) (hce : st.cacheEntries = [])
    (q : String) (hq : q ≠ cp (segJoin L)) :
    getA ((storageRemove dbRoot st (segJoin L)).1).disk q = getA st.disk q := by
  rw [storageRemove_good L hne hg st hce]
  split
  · exact getA_eraseA_ne st.disk (cp (segJoin L)) q hq
  · rfl

theorem srm_disk_self (L : List String) (hne : L ≠ [])
    (hg : ∀ s ∈ L, GoodSeg s) (st : St) (hce : st.cacheEntries = [])
    (hnd : (keysA st.disk).Nodup) :
    getA ((storageRemove dbRoot st (segJoin L)).1).disk (cp (segJoin L))
      = none := by
  rw [storageRemove_good L hne hg st hce]
  split
  · exact getA_eraseA_self st.disk (cp (segJoin L)) hnd
  · rename_i hfalse
    simp at hfalse
    exact hfalse.1

theorem srm_dirs_sub (L : List String) (hne : L ≠ [])
    (hg : ∀ s ∈ L, GoodSeg s) (st : St) (hce : st.cacheEntries = [])
    (q : String)
    (hq : q ∈ ((storageRemove dbRoot st (segJoin L)).1).dirs) :
    q ∈ st.dirs := by
  rw [storageRemove_good L hne hg st hce] at hq
  revert hq
  split
  · intro hq
    exact List.mem_of_mem_erase hq
  · intro hq
    exact hq

theorem srm_nodup (L : List String) (hne : L ≠ [])
    (hg : ∀ s ∈ L, GoodSeg s) (st : St) (hce : st.cacheEntries = [])
    (hnd : (keysA st.disk).Nodup) :
    (keysA ((storageRemove dbRoot st (segJoin L)).1).disk).Nodup := by
  rw [storageRemove_good L hne hg st hce]
  split
  · exact nodup_keysA_eraseA st.disk (cp (segJoin L)) hnd
  · exact hnd

theorem asIds_shaped (o : Option SVal) (h : idsShaped o = true) :
    asIds o = .ok (prevIds o) := by
  cases o with
  | none => rfl
  | some s =>
      cases s with
      | ids l => rfl
      | prim v => simp [idsShaped] at h
      | doc d => simp [idsShaped] at h

theorem writeFields_cons (c : Coll) (root : String) (u k : String) (v : Val)
    (rest : List (String × Val)) (st : St) :
    writeFields c root u ((k, v) :: rest) st
      = (if k = "id" then writeFields c root u rest st
         else match getA c.schema k with
           | none => (st, some .typeError)
           | some fd =>
               if fd.index then
                 if fd.unique then
                   match storageWrite root st (indexPath c.name k v)
                       (.prim (.str u)) with
                   | (st1, some e) => (st1, some e)
                   | (st1, none) => writeFields c root u rest st1
                 else
                   match storageRead root st (indexPath c.name k v) with
                   | .error e => (st, some e)
                   | .ok content =>
                       match asIds content with
                       | .error e => (st, some e)
                       | .ok l =>
                           match storageWrite root st (indexPath c.name k v)
                               (.ids (l ++ [u])) with
                           | (st1, some e) => (st1, some e)
                           | (st1, none) => writeFields c root u rest st1
               else writeFields c root u rest st) := rfl

theorem writeFields_spec (c : Coll) (u : String) (hgc : GoodSeg c.name)
    (hgu : GoodSeg u) :
    ∀ (entries : List (String × Val)) (st1 : St),
    (keysA entries).Nodup →
    (∀ kv ∈ entries, GoodSeg kv.1) →
    (∀ kv ∈ entries, kv.1 ≠ "id" → (getA c.schema kv.1).isSome = true) →
    st1.cacheEntries = [] →
    (∀ kv ∈ entries, kv.1 ≠ "id" → ∀ fd, getA c.schema kv.1 = some fd →
        fd.index = true → fd.unique = false →
        idsShaped (getA st1.disk (cp (indexPath c.name kv.1 kv.2))) = true) →
    (writeFields c dbRoot u entries st1).2 = none
    ∧ (writeFields c dbRoot u entries st1).1.cacheEntries = []
    ∧ (∀ kv ∈ entries, kv.1 ≠ "id" → ∀ fd, getA c.schema kv.1 = some fd →
        fd.index = true →
        getA (writeFields c dbRoot u entries st1).1.disk
            (cp (indexPath c.name kv.1 kv.2))
          = some (if fd.unique then .prim (.str u)
              else .ids (prevIds (getA st1.disk
                  (cp (indexPath c.name kv.1 kv.2))) ++ [u])))
    ∧ (∀ q, (∀ kv ∈ entries, kv.1 ≠ "id" →
          q ≠ cp (indexPath c.name kv.1 kv.2)) →
        getA (writeFields c dbRoot u entries st1).1.disk q = getA st1.disk q)
    ∧ (∀ q ∈ (writeFields c dbRoot u entries st1).1.dirs, q ∈ st1.dirs
        ∨ ∃ kv ∈ entries, kv.1 ≠ "id"
            ∧ q = dirnameStr (cp (indexPath c.name kv.1 kv.2)))
    ∧ ((keysA st1.disk).Nodup
        → (keysA (writeFields c dbRoot u entries st1).1.disk).Nodup) := by
  intro entries
  induction entries with
  | nil =>
      intro st1 _ _ _ hce _
      refine ⟨rfl, hce, ?_, ?_, ?_, ?_⟩
      · intro kv hkv
        simp at hkv
      · intro q _
        rfl
      · intro q hq
        exact Or.inl hq
      · intro h
        exact h
  | cons kvh rest ih =>
      intro st1 hnd hgood hpres hce hshape
      obtain ⟨k, v⟩ := kvh
      have hndr : (keysA rest).Nodup := (List.nodup_cons.mp hnd).2
      have hknotr : k ∉ keysA rest := (List.nodup_cons.mp hnd).1
      have hgoodr : ∀ kv ∈ rest, GoodSeg kv.1 :=
        fun kv hkv => hgood kv (List.mem_cons_of_mem _ hkv)
      have hpresr : ∀ kv ∈ rest, kv.1 ≠ "id" →
          (getA c.schema kv.1).isSome = true :=
        fun kv hkv => hpres kv (List.mem_cons_of_mem _ hkv)
      have hshaper : ∀ kv ∈ rest, kv.1 ≠ "id" → ∀ fd,
          getA c.schema kv.1 = some fd → fd.index = true → fd.unique = false →
          idsShaped (getA st1.disk (cp (indexPath c.name kv.1 kv.2))) = true :=
        fun kv hkv => hshape kv (List.mem_cons_of_mem _ hkv)
      have hgk : GoodSeg k := hgood (k, v) (List.mem_cons_self _ _)
      have hkeyne : ∀ kv, kv ∈ rest → kv.1 ≠ k := by
        intro kv hkv hh
        exact hknotr (hh ▸ fst_mem_keysA hkv)
      rw [writeFields_cons]
      by_cases hkid : k = "id"
      · rw [if_pos hkid]
        obtain ⟨c1, c2, c3, c4, c5, c6⟩ := ih st1 hndr hgoodr hpresr hce hshaper
        refine ⟨c1, c2, ?_, ?_, ?_, c6⟩
        · intro kv hkv hkvne fd hfd hfdidx
          rcases List.mem_cons.mp hkv with h | h
          · subst h
            exact absurd hkid hkvne
          · exact c3 kv h hkvne fd hfd hfdidx
        · intro q hq
          exact c4 q (fun kv hkv => hq kv (List.mem_cons_of_mem _ hkv))
        · intro q hq
          rcases c5 q hq with h | ⟨kv, hkv, hkvne, hdn⟩
          · exact Or.inl h
          · exact Or.inr ⟨kv, List.mem_cons_of_mem _ hkv, hkvne, hdn⟩
      · rw [if_neg hkid]
        obtain ⟨fd, hfd⟩ := Option.isSome_iff_exists.mp
          (hpres (k, v) (List.mem_cons_self _ _) hkid)
        rw [hfd]
        dsimp only
        cases hidx : fd.index
        · simp only [Bool.false_eq_true, if_false]
          obtain ⟨c1, c2, c3, c4, c5, c6⟩ := ih st1 hndr hgoodr hpresr hce hshaper
          refine ⟨c1, c2, ?_, ?_, ?_, c6⟩
          · intro kv hkv hkvne fd' hfd' hfdidx
            rcases List.mem_cons.mp hkv with h | h
            · exfalso
              subst h
              dsimp only at hfd'
              rw [hfd] at hfd'
              injection hfd' with hfdeq
              rw [← hfdeq] at hfdidx
              rw [hidx] at hfdidx
              exact Bool.false_ne_true hfdidx
            · exact c3 kv h hkvne fd' hfd' hfdidx
          · intro q hq
            exact c4 q (fun kv hkv => hq kv (List.mem_cons_of_mem _ hkv))
          · intro q hq
            rcases c5 q hq with h | ⟨kv, hkv, hkvne, hdn⟩
            · exact Or.inl h
            · exact Or.inr ⟨kv, List.mem_cons_of_mem _ hkv, hkvne, hdn⟩
        · simp only [eq_self_iff_true, if_true]
          cases huq : fd.unique
          · simp only [Bool.false_eq_true, if_false]
            rw [sr_ip_good c.name k v hgc hgk st1 hce]
            dsimp only
            have hshp := hshape (k, v) (List.mem_cons_self _ _) hkid fd hfd
              hidx huq
            rw [asIds_shaped _ hshp]
            dsimp only
            have hsnd := sw_ip_snd c.name k v
              (.ids (prevIds (getA st1.disk (cp (indexPath c.name k v))) ++ [u]))
              hgc hgk st1
            cases hsw : storageWrite dbRoot st1 (indexPath c.name k v)
                (.ids (prevIds (getA st1.disk (cp (indexPath c.name k v))) ++ [u])) with
            | mk st2 oe =>
                rw [hsw] at hsnd
                dsimp only at hsnd
                cases oe with
                | some e => exact absurd hsnd (by simp)
                | none =>
                    dsimp only
                    have hdisk2 : st2.disk
                        = setA st1.disk (cp (indexPath c.name k v))
                          (.ids (prevIds (getA st1.disk
                            (cp (indexPath c.name k v))) ++ [u])) := by
                      have h1 := sw_ip_disk c.name k v
                        (.ids (prevIds (getA st1.disk
                          (cp (indexPath c.name k v))) ++ [u])) hgc hgk st1
                      rw [hsw] at h1
                      exact h1
                    have hce2 : st2.cacheEntries = [] := by
                      have h1 := storageWrite_cacheEntries dbRoot st1
                        (indexPath c.name k v)
                        (.ids (prevIds (getA st1.disk
                          (cp (indexPath c.name k v))) ++ [u]))
                      rw [hsw] at h1
                      exact h1.trans hce
                    have hdirs2 : ∀ q ∈ st2.dirs, q ∈ st1.dirs
                        ∨ q = dirnameStr (cp (indexPath c.name k v)) := by
                      intro q hq
                      exact sw_ip_dirs c.name k v _ hgc hgk st1 q
                        (by rw [hsw]; exact hq)
                    have hshape2 : ∀ kv ∈ rest, kv.1 ≠ "id" → ∀ fd',
                        getA c.schema kv.1 = some fd' → fd'.index = true →
                        fd'.unique = false →
                        idsShaped (getA st2.disk
                          (cp (indexPath c.name kv.1 kv.2))) = true := by
                      intro kv hkv hkvne fd' hfd' hfi hfu
                      rw [hdisk2, getA_setA_ne _ _ _ _
                        (cp_indexPath_ne_of_key hgc (hgoodr kv hkv) hgk
                          (hkeyne kv hkv))]
                      exact hshaper kv hkv hkvne fd' hfd' hfi hfu
                    obtain ⟨c1, c2, c3, c4, c5, c6⟩ := ih st2 hndr hgoodr
                      hpresr hce2 hshape2
                    refine ⟨c1, c2, ?_, ?_, ?_, ?_⟩
                    · intro kv hkv hkvne fd' hfd' hfdidx
                      rcases List.mem_cons.mp hkv with h | h
                      · subst h
                        dsimp only at hfd' ⊢
                        rw [hfd] at hfd'
                        injection hfd' with hfdeq
                        rw [← hfdeq, huq]
                        simp only [Bool.false_eq_true, if_false]
                        rw [c4 (cp (indexPath c.name k v))
                          (fun kv' hkv' _ => cp_indexPath_ne_of_key hgc hgk
                            (hgoodr kv' hkv')
                            (fun hh => (hkeyne kv' hkv') hh.symm)),
                          hdisk2, getA_setA_self]
                      · have hne : cp (indexPath c.name kv.1 kv.2)
                            ≠ cp (indexPath c.name k v) :=
                          cp_indexPath_ne_of_key hgc (hgoodr kv h) hgk
                            (hkeyne kv h)
                        have := c3 kv h hkvne fd' hfd' hfdidx
                        rw [hdisk2, getA_setA_ne _ _ _ _ hne] at this
                        exact this
                    · intro q hq
                      have hqk : q ≠ cp (indexPath c.name k v) :=
                        hq (k, v) (List.mem_cons_self _ _) hkid
                      rw [c4 q (fun kv hkv hkvne =>
                          hq kv (List.mem_cons_of_mem _ hkv) hkvne),
                        hdisk2, getA_setA_ne _ _ _ _ hqk]
                    · intro q hq
                      rcases c5 q hq with h | ⟨kv, hkv, hkvne, hdn⟩
                      · rcases hdirs2 q h with h1 | h1
                        · exact Or.inl h1
                        · exact Or.inr ⟨(k, v), List.mem_cons_self _ _,
                            hkid, h1⟩
                      · exact Or.inr ⟨kv, List.mem_cons_of_mem _ hkv,
                          hkvne, hdn⟩
                    · intro hnddisk
                      exact c6 (by
                        rw [hdisk2]
                        exact nodup_keysA_setA _ _ _ hnddisk)
          · simp only [eq_self_iff_true, if_true]
            have hsnd := sw_ip_snd c.name k v (.prim (.str u)) hgc hgk st1
            cases hsw : storageWrite dbRoot st1 (indexPath c.name k v)
                (.prim (.str u)) with
            | mk st2 oe =>
                rw [hsw] at hsnd
                dsimp only at hsnd
                cases oe with
                | some e => exact absurd hsnd (by simp)
                | none =>
                    dsimp only
                    have hdisk2 : st2.disk
                        = setA st1.disk (cp (indexPath c.name k v))
                          (.prim (.str u)) := by
                      have h1 := sw_ip_disk c.name k v (.prim (.str u))
                        hgc hgk st1
                      rw [hsw] at h1
                      exact h1
                    have hce2 : st2.cacheEntries = [] := by
                      have h1 := storageWrite_cacheEntries dbRoot st1
                        (indexPath c.name k v) (.prim (.str u))
                      rw [hsw] at h1
                      exact h1.trans hce
                    have hdirs2 : ∀ q ∈ st2.dirs, q ∈ st1.dirs
                        ∨ q = dirnameStr (cp (indexPath c.name k v)) := by
                      intro q hq
                      exact sw_ip_dirs c.name k v _ hgc hgk st1 q
                        (by rw [hsw]; exact hq)
                    have hshape2 : ∀ kv ∈ rest, kv.1 ≠ "id" → ∀ fd',
                        getA c.schema kv.1 = some fd' → fd'.index = true →
                        fd'.unique = false →
                        idsShaped (getA st2.disk
                          (cp (indexPath c.name kv.1 kv.2))) = true := by
                      intro kv hkv hkvne fd' hfd' hfi hfu
                      rw [hdisk2, getA_setA_ne _ _ _ _
                        (cp_indexPath_ne_of_key hgc (hgoodr kv hkv) hgk
                          (hkeyne kv hkv))]
                      exact hshaper kv hkv hkvne fd' hfd' hfi hfu
                    obtain ⟨c1, c2, c3, c4, c5, c6⟩ := ih st2 hndr hgoodr
                      hpresr hce2 hshape2
                    refine ⟨c1, c2, ?_, ?_, ?_, ?_⟩
                    · intro kv hkv hkvne fd' hfd' hfdidx
                      rcases List.mem_cons.mp hkv with h | h
                      · subst h
                        dsimp only at hfd' ⊢
                        rw [hfd] at hfd'
                        injection hfd' with hfdeq
                        rw [← hfdeq, huq]
                        simp only [eq_self_iff_true, if_true]
                        rw [c4 (cp (indexPath c.name k v))
                          (fun kv' hkv' _ => cp_indexPath_ne_of_key hgc hgk
                            (hgoodr kv' hkv')
                            (fun hh => (hkeyne kv' hkv') hh.symm)),
                          hdisk2, getA_setA_self]
                      · have hne : cp (indexPath c.name kv.1 kv.2)
                            ≠ cp (indexPath c.name k v) :=
                          cp_indexPath_ne_of_key hgc (hgoodr kv h) hgk
                            (hkeyne kv h)
                        have := c3 kv h hkvne fd' hfd' hfdidx
                        rw [hdisk2, getA_setA_ne _ _ _ _ hne] at this
                        exact this
                    · intro q hq
                      have hqk : q ≠ cp (indexPath c.name k v) :=
                        hq (k, v) (List.mem_cons_self _ _) hkid
                      rw [c4 q (fun kv hkv hkvne =>
                          hq kv (List.mem_cons_of_mem _ hkv) hkvne),
                        hdisk2, getA_setA_ne _ _ _ _ hqk]
                    · intro q hq
                      rcases c5 q hq with h | ⟨kv, hkv, hkvne, hdn⟩
                      · rcases hdirs2 q h with h1 | h1
                        · exact Or.inl h1
                        · exact Or.inr ⟨(k, v), List.mem_cons_self _ _,
                            hkid, h1⟩
                      · exact Or.inr ⟨kv, List.mem_cons_of_mem _ hkv,
                          hkvne, hdn⟩
                    · intro hnddisk
                      exact c6 (by
                        rw [hdisk2]
                        exact nodup_keysA_setA _ _ _ hnddisk)

theorem write_spec (c : Coll) (st : St) (d : Doc)
    (hgc : GoodSeg c.name) (hwf : WFDoc c d) (hce : st.cacheEntries = [])
    (hshape : ∀ kv ∈ d, kv.1 ≠ "id" → ∀ fd, getA c.schema kv.1 = some fd →
        fd.index = true → fd.unique = false →
        idsShaped (getA st.disk (cp (indexPath c.name kv.1 kv.2))) = true) :
    (Coll.write c dbRoot st d).2 = none
    ∧ (Coll.write c dbRoot st d).1.cacheEntries = []
    ∧ getA (Coll.write c dbRoot st d).1.disk (cp (dataPath c.name (idOf d)))
        = some (.doc d)
    ∧ (∀ kv ∈ d, kv.1 ≠ "id" → ∀ fd, getA c.schema kv.1 = some fd →
        fd.index = true →
        getA (Coll.write c dbRoot st d).1.disk
            (cp (indexPath c.name kv.1 kv.2))
          = some (if fd.unique then .prim (.str (idOf d))
              else .ids (prevIds (getA st.disk
                  (cp (indexPath c.name kv.1 kv.2))) ++ [idOf d])))
    ∧ (∀ q, q ≠ cp (dataPath c.name (idOf d)) →
        (∀ kv ∈ d, kv.1 ≠ "id" → q ≠ cp (indexPath c.name kv.1 kv.2)) →
        getA (Coll.write c dbRoot st d).1.disk q = getA st.disk q)
    ∧ (∀ q ∈ (Coll.write c dbRoot st d).1.dirs, q ∈ st.dirs
        ∨ q = dirnameStr (cp (dataPath c.name (idOf d)))
        ∨ ∃ kv ∈ d, kv.1 ≠ "id"
            ∧ q = dirnameStr (cp (indexPath c.name kv.1 kv.2)))
    ∧ ((keysA st.disk).Nodup
        → (keysA (Coll.write c dbRoot st d).1.disk).Nodup) := by
  obtain ⟨hnd, hgood, hpres, hid, hgu⟩ := hwf
  unfold Coll.write
  have hsnd := sw_dp_snd c.name (idOf d) (.doc d) hgc hgu st
  cases hsw : storageWrite dbRoot st (dataPath c.name (idOf d)) (.doc d) with
  | mk st2 oe =>
      rw [hsw] at hsnd
      dsimp only at hsnd
      cases oe with
      | some e => exact absurd hsnd (by simp)
      | none =>
          dsimp only
          have hdisk2 : st2.disk
              = setA st.disk (cp (dataPath c.name (idOf d))) (.doc d) := by
            have h1 := sw_dp_disk c.name (idOf d) (.doc d) hgc hgu st
            rw [hsw] at h1
            exact h1
          have hce2 : st2.cacheEntries = [] := by
            have h1 := storageWrite_cacheEntries dbRoot st
              (dataPath c.name (idOf d)) (.doc d)
            rw [hsw] at h1
            exact h1.trans hce
          have hdirs2 : ∀ q ∈ st2.dirs, q ∈ st.dirs
              ∨ q = dirnameStr (cp (dataPath c.name (idOf d))) := by
            intro q hq
            exact sw_dp_dirs c.name (idOf d) _ hgc hgu st q
              (by rw [hsw]; exact hq)
          have hdpne : ∀ kv ∈ d, cp (dataPath c.name (idOf d))
              ≠ cp (indexPath c.name kv.1 kv.2) :=
            fun kv hkv => cp_dataPath_ne_indexPath hgc hgu (hgood kv hkv)
          have hshape2 : ∀ kv ∈ d, kv.1 ≠ "id" → ∀ fd,
              getA c.schema kv.1 = some fd → fd.index = true →
              fd.unique = false →
              idsShaped (getA st2.disk (cp (indexPath c.name kv.1 kv.2)))
                = true := by
            intro kv hkv hkvne fd hfd hfi hfu
            rw [hdisk2, getA_setA_ne _ _ _ _ (hdpne kv hkv).symm]
            exact hshape kv hkv hkvne fd hfd hfi hfu
          obtain ⟨c1, c2, c3, c4, c5, c6⟩ := writeFields_spec c (idOf d) hgc
            hgu d st2 hnd hgood hpres hce2 hshape2
          refine ⟨c1, c2, ?_, ?_, ?_, ?_, ?_⟩
          · rw [c4 (cp (dataPath c.name (idOf d)))
              (fun kv hkv _ => hdpne kv hkv), hdisk2, getA_setA_self]
          · intro kv hkv hkvne fd hfd hfi
            have := c3 kv hkv hkvne fd hfd hfi
            rw [hdisk2, getA_setA_ne _ _ _ _ (hdpne kv hkv).symm] at this
            exact this
          · intro q hqd hqi
            rw [c4 q hqi, hdisk2, getA_setA_ne _ _ _ _ hqd]
          · intro q hq
            rcases c5 q hq with h | ⟨kv, hkv, hkvne, hdn⟩
            · rcases hdirs2 q h with h1 | h1
              · exact Or.inl h1
              · exact Or.inr (Or.inl h1)
            · exact Or.inr (Or.inr ⟨kv, hkv, hkvne, hdn⟩)
          · intro hnddisk
            exact c6 (by
              rw [hdisk2]
              exact nodup_keysA_setA _ _ _ hnddisk)

theorem shapeOK_spec (c : Coll) (st : St) (kv : String × Val)
    (h : shapeOK c st kv = true) (fd : FieldDesc)
    (hfd : getA c.schema kv.1 = some fd) (hi : fd.index = true)
    (hu : fd.unique = false) :
    idsShaped (getA st.disk (cp (indexPath c.name kv.1 kv.2))) = true := by
  unfold shapeOK at h
  rw [hfd] at h
  dsimp only at h
  rw [hi, hu] at h
  simpa using h

theorem firstMatch_cons (c : Coll) (root : String) (st : St)
    (q : List (String × Val)) (u : String) (rest : List String) :
    firstMatch c root st q (u :: rest)
      = (match storageRead root st (dataPath c.name u) with
         | .error e => .error e
         | .ok o =>
             match candDoc o with
             | .error e => .error e
             | .ok none => firstMatch c root st q rest
             | .ok (some d) =>
                 if matchesQ q d then .ok (some d)
                 else firstMatch c root st q rest) := rfl

theorem findOne_after_write (c : Coll) (st : St) (d : Doc) (k : String)
    (v : Val) (fd : FieldDesc)
    (hgc : GoodSeg c.name) (hwf : WFDoc c d) (hce : st.cacheEntries = [])
    (hshape : ∀ kv ∈ d, kv.1 ≠ "id" → shapeOK c st kv = true)
    (hmem : (k, v) ∈ d) (hk : k ≠ "id")
    (hfd : getA c.schema k = some fd) (hidx : fd.index = true)
    (hfresh : fd.unique = false →
      prevIds (getA st.disk (cp (indexPath c.name k v))) = []) :
    Coll.findOne c dbRoot (Coll.write c dbRoot st d).1 [(k, v)]
      = .ok (some d) := by
  obtain ⟨hnd, hgood, hpres, hid, hgu⟩ := hwf
  have hgk : GoodSeg k := hgood (k, v) hmem
  have hshape' : ∀ kv ∈ d, kv.1 ≠ "id" → ∀ fd', getA c.schema kv.1 = some fd' →
      fd'.index = true → fd'.unique = false →
      idsShaped (getA st.disk (cp (indexPath c.name kv.1 kv.2))) = true :=
    fun kv hkv hkvne fd' hfd' hi hu =>
      shapeOK_spec c st kv (hshape kv hkv hkvne) fd' hfd' hi hu
  obtain ⟨w1, w2, w3, w4, w5, w6, w7⟩ := write_spec c st d hgc
    ⟨hnd, hgood, hpres, hid, hgu⟩ hce hshape'
  have hentry := w4 (k, v) hmem hk fd hfd hidx
  have hg : gatherCands c dbRoot (Coll.write c dbRoot st d).1 [(k, v)] []
      = .ok [idOf d] := by
    cases huq : fd.unique
    · have hentry' : getA (Coll.write c dbRoot st d).1.disk
          (cp (indexPath c.name k v)) = some (.ids [idOf d]) := by
        rw [huq] at hentry
        simp only [Bool.false_eq_true, if_false] at hentry
        rw [hfresh huq] at hentry
        simpa using hentry
      rw [gatherCands_cons, if_neg hk, hfd]
      dsimp only
      rw [se_ip_good c.name k v hgc hgk _ w2,
        sr_ip_good c.name k v hgc hgk _ w2, hentry']
      simp [hidx, huq, gatherCands, addCands, addCand, idsCand]
    · have hentry' : getA (Coll.write c dbRoot st d).1.disk
          (cp (indexPath c.name k v)) = some (.prim (.str (idOf d))) := by
        rw [huq] at hentry
        simpa using hentry
      rw [gatherCands_cons, if_neg hk, hfd]
      dsimp only
      rw [se_ip_good c.name k v hgc hgk _ w2,
        sr_ip_good c.name k v hgc hgk _ w2, hentry']
      simp [hidx, huq, gatherCands, addCands, addCand, uniqueCand]
  have hm : matchesQ [(k, v)] d = true := by
    unfold matchesQ
    simp [getA_mem_of_nodup d k v hnd hmem]
  have hfm : firstMatch c dbRoot (Coll.write c dbRoot st d).1 [(k, v)]
      [idOf d] = .ok (some d) := by
    rw [firstMatch_cons, sr_dp_good c.name (idOf d) hgc hgu _ w2, w3]
    dsimp only [candDoc]
    simp [hm]
  unfold Coll.findOne
  rw [hg]
  dsimp only
  exact hfm

/-- C1: a document assembled by create (which leaves the store untouched)
and then persisted by write on the same collection is returned intact by
get on its id: the data file read back equals the assembled document. -/
theorem create_write_get_round_trip (c : Coll) (st : St)
    (input d : Doc) (freshId : String)
    (hgc : GoodSeg c.name) (hwf : WFDoc c d) (hce : st.cacheEntries = [])
    (hshape : ∀ kv ∈ d, kv.1 ≠ "id" → shapeOK c st kv = true)
    (hcreate : Coll.create c dbRoot st freshId input = (st, d, .ok ())) :
    (Coll.write c dbRoot st d).2 = none
    ∧ Coll.get c dbRoot (Coll.write c dbRoot st d).1 (idOf d)
        = .ok (some (.doc d)) := by
  obtain ⟨hnd, hgood, hpres, hid, hgu⟩ := hwf
  have hshape' : ∀ kv ∈ d, kv.1 ≠ "id" → ∀ fd', getA c.schema kv.1 = some fd' →
      fd'.index = true → fd'.unique = false →
      idsShaped (getA st.disk (cp (indexPath c.name kv.1 kv.2))) = true :=
    fun kv hkv hkvne fd' hfd' hi hu =>
      shapeOK_spec c st kv (hshape kv hkv hkvne) fd' hfd' hi hu
  obtain ⟨w1, w2, w3, _, _, _, _⟩ := write_spec c st d hgc
    ⟨hnd, hgood, hpres, hid, hgu⟩ hce hshape'
  refine ⟨w1, ?_⟩
  unfold Coll.get
  rw [sr_dp_good c.name (idOf d) hgc hgu _ w2, w3]

theorem create_write_get_round_trip_case :
    (Coll.write cU2 dbRoot initSt dC1).2 = none
    ∧ Coll.get cU2 dbRoot (Coll.write cU2 dbRoot initSt dC1).1 (idOf dC1)
        = .ok (some (.doc dC1)) :=
  create_write_get_round_trip cU2 initSt [("username", .str "bob")] dC1 "u1"
    (by decide) (by decide) rfl (by decide) (by decide)

/-- C2: with a document d0 carrying value v for a unique indexed field
already persisted via write, a later create whose resolved value for
that field is v fails with the unique-constraint error, and the returned
storage state is exactly the state at the call: the failure happens
before any write. -/
theorem duplicate_unique_create_fails_before_write
    (c : Coll) (st : St) (d0 input d1 d2 : Doc) (k : String) (v : Val)
    (fd : FieldDesc) (pre post : List (String × FieldDesc)) (freshId : String)
    (hgc : GoodSeg c.name) (hwf : WFDoc c d0) (hce : st.cacheEntries = [])
    (hshape : ∀ kv ∈ d0, kv.1 ≠ "id" → shapeOK c st kv = true)
    (hmem : (k, v) ∈ d0) (hk : k ≠ "id") (hfd : getA c.schema k = some fd)
    (hidx : fd.index = true) (huniq : fd.unique = true)
    (hschema : c.schema = pre ++ (k, fd) :: post)
    (hpre : createFields c dbRoot (Coll.write c dbRoot st d0).1 freshId pre
        input = ((Coll.write c dbRoot st d0).1, d1, .ok ()))
    (hres : resolveField fd k d1 = (d2, none))
    (hval : getA d2 k = some v) :
    Coll.create c dbRoot (Coll.write c dbRoot st d0).1 freshId input
      = ((Coll.write c dbRoot st d0).1, d2, .error .uniqueViolation) := by
  have hfo := findOne_after_write c st d0 k v fd hgc hwf hce hshape hmem hk
    hfd hidx (fun h => by simp [huniq] at h)
  show createFields c dbRoot _ freshId c.schema input = _
  rw [hschema, createFields_append, hpre]
  dsimp only
  rw [createFields_cons_ne _ _ _ _ k fd post d1 hk, hres]
  dsimp only
  simp only [huniq, eq_self_iff_true, if_true]
  rw [hval]
  dsimp only
  rw [hfo]

theorem duplicate_unique_create_fails_before_write_case :
    Coll.create cU2 dbRoot (Coll.write cU2 dbRoot initSt dU2).1 "u2"
        [("username", .str "alice")]
      = ((Coll.write cU2 dbRoot initSt dU2).1,
         [("username", Val.str "alice"), ("id", Val.str "u2")],
         .error .uniqueViolation) :=
  duplicate_unique_create_fails_before_write cU2 initSt dU2
    [("username", .str "alice")]
    [("username", Val.str "alice"), ("id", Val.str "u2")]
    [("username", Val.str "alice"), ("id", Val.str "u2")]
    "username" (.str "alice")
    { index := true, unique := true, required := true }
    [("id", idDesc)] [] "u2"
    (by decide) (by decide) rfl (by decide) (by decide) (by decide)
    (by decide) (by decide) (by decide) (by decide) (by decide) (by decide)
    (by decide)

theorem contains_false_of_not_mem (l : List String) (a : String)
    (h : a ∉ l) : l.contains a = false := by
  cases hcb : l.contains a
  · rfl
  · exact absurd (List.mem_of_elem_eq_true hcb) h

theorem deleteFields_cons (c : Coll) (root k : String) (v : Val)
    (rest : List (String × Val)) (st : St) :
    deleteFields c root ((k, v) :: rest) st
      = (if k = "id" then deleteFields c root rest st
         else match getA c.schema k with
           | none => (st, some .typeError)
           | some fd =>
               if fd.index then
                 match storageRemove root st (indexPath c.name k v) with
                 | (st1, some e) => (st1, some e)
                 | (st1, none) => deleteFields c root rest st1
               else deleteFields c root rest st) := rfl

theorem srm_ip_snd (cn k : String) (v : Val) (hc : GoodSeg cn)
    (hk : GoodSeg k) (st : St) (hce : st.cacheEntries = []) :
    (storageRemove dbRoot st (indexPath cn k v)).2 = none :=
  srm_snd ["index", cn, k, pathsafe v] (by simp) (goodL_indexPath v hc hk)
    st hce

theorem srm_ip_entries (cn k : String) (v : Val) (hc : GoodSeg cn)
    (hk : GoodSeg k) (st : St) (hce : st.cacheEntries = []) :
    ((storageRemove dbRoot st (indexPath cn k v)).1).cacheEntries = [] :=
  srm_entries ["index", cn, k, pathsafe v] (by simp) (goodL_indexPath v hc hk)
    st hce

theorem srm_ip_disk_ne (cn k : String) (v : Val) (hc : GoodSeg cn)
    (hk : GoodSeg k) (st : St) (hce : st.cacheEntries = []) (q : String)
    (hq : q ≠ cp (indexPath cn k v)) :
    getA ((storageRemove dbRoot st (indexPath cn k v)).1).disk q
      = getA st.disk q :=
  srm_disk_ne ["index", cn, k, pathsafe v] (by simp) (goodL_indexPath v hc hk)
    st hce q hq

theorem srm_ip_disk_self (cn k : String) (v : Val) (hc : GoodSeg cn)
    (hk : GoodSeg k) (st : St) (hce : st.cacheEntries = [])
    (hnd : (keysA st.disk).Nodup) :
    getA ((storageRemove dbRoot st (indexPath cn k v)).1).disk
      (cp (indexPath cn k v)) = none :=
  srm_disk_self ["index", cn, k, pathsafe v] (by simp)
    (goodL_indexPath v hc hk) st hce hnd

theorem srm_ip_dirs_sub (cn k : String) (v : Val) (hc : GoodSeg cn)
    (hk : GoodSeg k) (st : St) (hce : st.cacheEntries = []) (q : String)
    (hq : q ∈ ((storageRemove dbRoot st (indexPath cn k v)).1).dirs) :
    q ∈ st.dirs :=
  srm_dirs_sub ["index", cn, k, pathsafe v] (by simp)
    (goodL_indexPath v hc hk) st hce q hq

theorem srm_ip_nodup (cn k : String) (v : Val) (hc : GoodSeg cn)
    (hk : GoodSeg k) (st : St) (hce : st.cacheEntries = [])
    (hnd : (keysA st.disk).Nodup) :
    (keysA ((storageRemove dbRoot st (indexPath cn k v)).1).disk).Nodup :=
  srm_nodup ["index", cn, k, pathsafe v] (by simp) (goodL_indexPath v hc hk)
    st hce hnd

theorem srm_dp_snd (cn u : String) (hc : GoodSeg cn) (hu : GoodSeg u)
    (st : St) (hce : st.cacheEntries = []) :
    (storageRemove dbRoot st (dataPath cn u)).2 = none :=
  srm_snd ["data", cn, u] (by simp) (goodL_dataPath hc hu) st hce

theorem srm_dp_entries (cn u : String) (hc : GoodSeg cn) (hu : GoodSeg u)
    (st : St) (hce : st.cacheEntries = []) :
    ((storageRemove dbRoot st (dataPath cn u)).1).cacheEntries = [] :=
  srm_entries ["data", cn, u] (by simp) (goodL_dataPath hc hu) st hce

theorem srm_dp_disk_ne (cn u : String) (hc : GoodSeg cn) (hu : GoodSeg u)
    (st : St) (hce : st.cacheEntries = []) (q : String)
    (hq : q ≠ cp (dataPath cn u)) :
    getA ((storageRemove dbRoot st (dataPath cn u)).1).disk q
      = getA st.disk q :=
  srm_disk_ne ["data", cn, u] (by simp) (goodL_dataPath hc hu) st hce q hq

theorem srm_dp_disk_self (cn u : String) (hc : GoodSeg cn) (hu : GoodSeg u)
    (st : St) (hce : st.cacheEntries = []) (hnd : (keysA st.disk).Nodup) :
    getA ((storageRemove dbRoot st (dataPath cn u)).1).disk
      (cp (dataPath cn u)) = none :=
  srm_disk_self ["data", cn, u] (by simp) (goodL_dataPath hc hu) st hce hnd

theorem srm_dp_dirs_sub (cn u : String) (hc : GoodSeg cn) (hu : GoodSeg u)
    (st : St) (hce : st.cacheEntries = []) (q : String)
    (hq : q ∈ ((storageRemove dbRoot st (dataPath cn u)).1).dirs) :
    q ∈ st.dirs :=
  srm_dirs_sub ["data", cn, u] (by simp) (goodL_dataPath hc hu) st hce q hq

theorem srm_dp_nodup (cn u : String) (hc : GoodSeg cn) (hu : GoodSeg u)
    (st : St) (hce : st.cacheEntries = []) (hnd : (keysA st.disk).Nodup) :
    (keysA ((storageRemove dbRoot st (dataPath cn u)).1).disk).Nodup :=
  srm_nodup ["data", cn, u] (by simp) (goodL_dataPath hc hu) st hce hnd

theorem deleteFields_spec (c : Coll) (hgc : GoodSeg c.name) :
    ∀ (entries : List (String × Val)) (st1 : St),
    (keysA entries).Nodup →
    (∀ kv ∈ entries, GoodSeg kv.1) →
    (∀ kv ∈ entries, kv.1 ≠ "id" → (getA c.schema kv.1).isSome = true) →
    st1.cacheEntries = [] →
    (keysA st1.disk).Nodup →
    (deleteFields c dbRoot entries st1).2 = none
    ∧ (deleteFields c dbRoot entries st1).1.cacheEntries = []
    ∧ (∀ kv ∈ entries, kv.1 ≠ "id" → ∀ fd, getA c.schema kv.1 = some fd →
        fd.index = true →
        getA (deleteFields c dbRoot entries st1).1.disk
          (cp (indexPath c.name kv.1 kv.2)) = none)
    ∧ (∀ q, (∀ kv ∈ entries, kv.1 ≠ "id" →
          q ≠ cp (indexPath c.name kv.1 kv.2)) →
        getA (deleteFields c dbRoot entries st1).1.disk q = getA st1.disk q)
    ∧ (∀ q ∈ (deleteFields c dbRoot entries st1).1.dirs, q ∈ st1.dirs)
    ∧ (keysA (deleteFields c dbRoot entries st1).1.disk).Nodup := by
  intro entries
  induction entries with
  | nil =>
      intro st1 _ _ _ hce hnd
      refine ⟨rfl, hce, ?_, ?_, ?_, hnd⟩
      · intro kv hkv
        simp at hkv
      · intro q _
        rfl
      · intro q hq
        exact hq
  | cons kvh rest ih =>
      intro st1 hnd hgood hpres hce hnddisk
      obtain ⟨k, v⟩ := kvh
      have hndr : (keysA rest).Nodup := (List.nodup_cons.mp hnd).2
      have hknotr : k ∉ keysA rest := (List.nodup_cons.mp hnd).1
      have hgoodr : ∀ kv ∈ rest, GoodSeg kv.1 :=
        fun kv hkv => hgood kv (List.mem_cons_of_mem _ hkv)
      have hpresr : ∀ kv ∈ rest, kv.1 ≠ "id" →
          (getA c.schema kv.1).isSome = true :=
        fun kv hkv => hpres kv (List.mem_cons_of_mem _ hkv)
      have hgk : GoodSeg k := hgood (k, v) (List.mem_cons_self _ _)
      have hkeyne : ∀ kv, kv ∈ rest → kv.1 ≠ k := by
        intro kv hkv hh
        exact hknotr (hh ▸ fst_mem_keysA hkv)
      rw [deleteFields_cons]
      by_cases hkid : k = "id"
      · rw [if_pos hkid]
        obtain ⟨c1, c2, c3, c4, c5, c6⟩ := ih st1 hndr hgoodr hpresr hce hnddisk
        refine ⟨c1, c2, ?_, ?_, c5, c6⟩
        · intro kv hkv hkvne fd hfd hfdidx
          rcases List.mem_cons.mp hkv with h | h
          · subst h
            exact absurd hkid hkvne
          · exact c3 kv h hkvne fd hfd hfdidx
        · intro q hq
          exact c4 q (fun kv hkv => hq kv (List.mem_cons_of_mem _ hkv))
      · rw [if_neg hkid]
        obtain ⟨fd, hfd⟩ := Option.isSome_iff_exists.mp
          (hpres (k, v) (List.mem_cons_self _ _) hkid)
        rw [hfd]
        dsimp only
        cases hidx : fd.index
        · simp only [Bool.false_eq_true, if_false]
          obtain ⟨c1, c2, c3, c4, c5, c6⟩ := ih st1 hndr hgoodr hpresr hce
            hnddisk
          refine ⟨c1, c2, ?_, ?_, c5, c6⟩
          · intro kv hkv hkvne fd' hfd' hfdidx
            rcases List.mem_cons.mp hkv with h | h
            · exfalso
              subst h
              dsimp only at hfd'
              rw [hfd] at hfd'
              injection hfd' with hfdeq
              rw [← hfdeq] at hfdidx
              rw [hidx] at hfdidx
              exact Bool.false_ne_true hfdidx
            · exact c3 kv h hkvne fd' hfd' hfdidx
          · intro q hq
            exact c4 q (fun kv hkv => hq kv (List.mem_cons_of_mem _ hkv))
        · simp only [eq_self_iff_true, if_true]
          have hsnd := srm_ip_snd c.name k v hgc hgk st1 hce
          cases hsr : storageRemove dbRoot st1 (indexPath c.name k v) with
          | mk st2 oe =>
              rw [hsr] at hsnd
              dsimp only at hsnd
              cases oe with
              | some e => exact absurd hsnd (by simp)
              | none =>
                  dsimp only
                  have hce2 : st2.cacheEntries = [] := by
                    have h1 := srm_ip_entries c.name k v hgc hgk st1 hce
                    rw [hsr] at h1
                    exact h1
                  have hdiskne : ∀ q, q ≠ cp (indexPath c.name k v) →
                      getA st2.disk q = getA st1.disk q := by
                    intro q hq
                    have h1 := srm_ip_disk_ne c.name k v hgc hgk st1 hce q hq
                    rw [hsr] at h1
                    exact h1
                  have hdiskself : getA st2.disk (cp (indexPath c.name k v))
                      = none := by
                    have h1 := srm_ip_disk_self c.name k v hgc hgk st1 hce
                      hnddisk
                    rw [hsr] at h1
                    exact h1
                  have hdirs2 : ∀ q ∈ st2.dirs, q ∈ st1.dirs := by
                    intro q hq
                    exact srm_ip_dirs_sub c.name k v hgc hgk st1 hce q
                      (by rw [hsr]; exact hq)
                  have hnd2 : (keysA st2.disk).Nodup := by
                    have h1 := srm_ip_nodup c.name k v hgc hgk st1 hce hnddisk
                    rw [hsr] at h1
                    exact h1
                  obtain ⟨c1, c2, c3, c4, c5, c6⟩ := ih st2 hndr hgoodr
                    hpresr hce2 hnd2
                  refine ⟨c1, c2, ?_, ?_, ?_, c6⟩
                  · intro kv hkv hkvne fd' hfd' hfdidx
                    rcases List.mem_cons.mp hkv with h | h
                    · subst h
                      dsimp only at hfd' ⊢
                      rw [c4 (cp (indexPath c.name k v))
                        (fun kv' hkv' _ => cp_indexPath_ne_of_key hgc hgk
                          (hgoodr kv' hkv')
                          (fun hh => (hkeyne kv' hkv') hh.symm))]
                      exact hdiskself
                    · have hne : cp (indexPath c.name kv.1 kv.2)
                          ≠ cp (indexPath c.name k v) :=
                        cp_indexPath_ne_of_key hgc (hgoodr kv h) hgk
                          (hkeyne kv h)
                      have := c3 kv h hkvne fd' hfd' hfdidx
                      exact this
                  · intro q hq
                    have hqk : q ≠ cp (indexPath c.name k v) :=
                      hq (k, v) (List.mem_cons_self _ _) hkid
                    rw [c4 q (fun kv hkv hkvne =>
                        hq kv (List.mem_cons_of_mem _ hkv) hkvne),
                      hdiskne q hqk]
                  · intro q hq
                    exact hdirs2 q (c5 q hq)

theorem delete_spec (c : Coll) (st : St) (d : Doc) (hgc : GoodSeg c.name)
    (hwf : WFDoc c d) (hce : st.cacheEntries = [])
    (hnddisk : (keysA st.disk).Nodup) :
    (Coll.delete c dbRoot st d).2 = none
    ∧ (Coll.delete c dbRoot st d).1.cacheEntries = []
    ∧ (∀ kv ∈ d, kv.1 ≠ "id" → ∀ fd, getA c.schema kv.1 = some fd →
        fd.index = true →
        getA (Coll.delete c dbRoot st d).1.disk
          (cp (indexPath c.name kv.1 kv.2)) = none)
    ∧ (∀ q ∈ (Coll.delete c dbRoot st d).1.dirs, q ∈ st.dirs) := by
  obtain ⟨hnd, hgood, hpres, hid, hgu⟩ := hwf
  unfold Coll.delete
  have hsnd := srm_dp_snd c.name (idOf d) hgc hgu st hce
  cases hsr : storageRemove dbRoot st (dataPath c.name (idOf d)) with
  | mk st2 oe =>
      rw [hsr] at hsnd
      dsimp only at hsnd
      cases oe with
      | some e => exact absurd hsnd (by simp)
      | none =>
          dsimp only
          have hce2 : st2.cacheEntries = [] := by
            have h1 := srm_dp_entries c.name (idOf d) hgc hgu st hce
            rw [hsr] at h1
            exact h1
          have hdiskne : ∀ q, q ≠ cp (dataPath c.name (idOf d)) →
              getA st2.disk q = getA st.disk q := by
            intro q hq
            have h1 := srm_dp_disk_ne c.name (idOf d) hgc hgu st hce q hq
            rw [hsr] at h1
            exact h1
          have hdirs2 : ∀ q ∈ st2.dirs, q ∈ st.dirs := by
            intro q hq
            exact srm_dp_dirs_sub c.name (idOf d) hgc hgu st hce q
              (by rw [hsr]; exact hq)
          have hnd2 : (keysA st2.disk).Nodup := by
            have h1 := srm_dp_nodup c.name (idOf d) hgc hgu st hce hnddisk
            rw [hsr] at h1
            exact h1
          obtain ⟨c1, c2, c3, c4, c5, c6⟩ := deleteFields_spec c hgc d st2
            hnd hgood hpres hce2 hnd2
          exact ⟨c1, c2, c3, fun q hq => hdirs2 q (c5 q hq)⟩

/-- C3 amended: after write(d) in a state whose index entry for the
queried field value was previously absent, findOne on any indexed
non-id field of d returns a document whose id equals d's id; after
delete(d), the same query returns absent.  (Queries on id alone always
return absent — the id field is excluded from candidate gathering and no
id index entry is ever written — see the counterexample.) -/
theorem write_find_delete_index_coherence (c : Coll) (st : St) (d : Doc)
    (k : String) (v : Val) (fd : FieldDesc)
    (hgc : GoodSeg c.name) (hwf : WFDoc c d) (hce : st.cacheEntries = [])
    (hnddisk : (keysA st.disk).Nodup)
    (hshape : ∀ kv ∈ d, kv.1 ≠ "id" → shapeOK c st kv = true)
    (hmem : (k, v) ∈ d) (hk : k ≠ "id")
    (hfd : getA c.schema k = some fd) (hidx : fd.index = true)
    (hfresh : prevIds (getA st.disk (cp (indexPath c.name k v))) = [])
    (hdirs0 : cp (indexPath c.name k v) ∉ st.dirs) :
    (Coll.write c dbRoot st d).2 = none
    ∧ (∃ obj, Coll.findOne c dbRoot (Coll.write c dbRoot st d).1 [(k, v)]
        = .ok (some obj) ∧ getA obj "id" = getA d "id")
    ∧ (Coll.delete c dbRoot (Coll.write c dbRoot st d).1 d).2 = none
    ∧ Coll.findOne c dbRoot
        (Coll.delete c dbRoot (Coll.write c dbRoot st d).1 d).1 [(k, v)]
      = .ok none := by
  obtain ⟨hnd, hgood, hpres, hid, hgu⟩ := hwf
  have hgk : GoodSeg k := hgood (k, v) hmem
  have hshape' : ∀ kv ∈ d, kv.1 ≠ "id" → ∀ fd', getA c.schema kv.1 = some fd' →
      fd'.index = true → fd'.unique = false →
      idsShaped (getA st.disk (cp (indexPath c.name kv.1 kv.2))) = true :=
    fun kv hkv hkvne fd' hfd' hi hu =>
      shapeOK_spec c st kv (hshape kv hkv hkvne) fd' hfd' hi hu
  obtain ⟨w1, w2, w3, w4, w5, w6, w7⟩ := write_spec c st d hgc
    ⟨hnd, hgood, hpres, hid, hgu⟩ hce hshape'
  obtain ⟨e1, e2, e3, e4⟩ := delete_spec c (Coll.write c dbRoot st d).1 d hgc
    ⟨hnd, hgood, hpres, hid, hgu⟩ w2 (w7 hnddisk)
  refine ⟨w1, ?_, e1, ?_⟩
  · exact ⟨d, findOne_after_write c st d k v fd hgc
      ⟨hnd, hgood, hpres, hid, hgu⟩ hce hshape hmem hk hfd hidx
      (fun _ => hfresh), rfl⟩
  · have hdel := e3 (k, v) hmem hk fd hfd hidx
    have hdirsD : cp (indexPath c.name k v)
        ∉ (Coll.delete c dbRoot (Coll.write c dbRoot st d).1 d).1.dirs := by
      intro hmemD
      rcases w6 _ (e4 _ hmemD) with h1 | h1 | ⟨kv, hkv, hkvne, h1⟩
      · exact hdirs0 h1
      · exact dirname_dataPath_ne_indexPath hgc hgu hgk h1.symm
      · exact dirname_indexPath_ne_indexPath hgc (hgood kv hkv) hgk h1.symm
    unfold Coll.findOne
    have hg : gatherCands c dbRoot
        (Coll.delete c dbRoot (Coll.write c dbRoot st d).1 d).1 [(k, v)] []
        = .ok [] := by
      rw [gatherCands_cons, if_neg hk, hfd]
      dsimp only
      rw [se_ip_good c.name k v hgc hgk _ e2, hdel,
        contains_false_of_not_mem _ _ hdirsD]
      simp [hidx, gatherCands]
    rw [hg]
    rfl

theorem write_find_delete_index_coherence_case :
    (Coll.write cC7 dbRoot initSt dC7).2 = none
    ∧ Coll.findOne cC7 dbRoot
        (Coll.delete cC7 dbRoot (Coll.write cC7 dbRoot initSt dC7).1 dC7).1
        [("a", .num 1)] = .ok none := by
  have h := write_find_delete_index_coherence cC7 initSt dC7 "a" (.num 1)
    { index := true } (by decide) (by decide) rfl (by decide) (by decide)
    (by decide) (by decide) (by decide) (by decide) (by decide) (by decide)
  exact ⟨h.1, h.2.2.2⟩

theorem addCand_fresh (acc : List String) (x : String) (h : x ∉ acc) :
    addCand acc x = acc ++ [x] := by
  unfold addCand
  rw [contains_false_of_not_mem acc x h]
  simp

theorem addCands_fresh : ∀ (l acc : List String), (∀ x ∈ l, x ∉ acc) →
    l.Nodup → addCands acc l = acc ++ l := by
  intro l
  induction l with
  | nil => intro acc _ _; simp [addCands]
  | cons x rest ih =>
      intro acc h hnd
      show addCands (addCand acc x) rest = _
      rw [addCand_fresh acc x (h x (by simp))]
      rw [ih (acc ++ [x]) (by
        intro y hy hmem
        rcases List.mem_append.mp hmem with hm | hm
        · exact h y (by simp [hy]) hm
        · simp at hm
          subst hm
          exact (List.nodup_cons.mp hnd).1 hy) (List.nodup_cons.mp hnd).2]
      simp

theorem idsCand_eq_prevIds (o : Option SVal) (h : idsShaped o = true) :
    idsCand o = prevIds o := by
  cases o with
  | none => rfl
  | some s =>
      cases s with
      | ids l => rfl
      | prim v => simp [idsShaped] at h
      | doc d => simp [idsShaped] at h

theorem collectMatches_cons (c : Coll) (root : String) (st : St)
    (q : List (String × Val)) (u : String) (rest : List String)
    (res : List Doc) :
    collectMatches c root st q (u :: rest) res
      = (match storageRead root st (dataPath c.name u) with
         | .error e => .error e
         | .ok o =>
             match candDoc o with
             | .error e => .error e
             | .ok none => collectMatches c root st q rest res
             | .ok (some d) =>
                 if matchesQ q d then collectMatches c root st q rest (res ++ [d])
                 else collectMatches c root st q rest res) := rfl

theorem collectMatches_docs (c : Coll) (stF : St) (k : String) (v : Val)
    (hceF : stF.cacheEntries = []) (hgc : GoodSeg c.name) :
    ∀ (ds : List Doc) (res : List Doc),
    (∀ d ∈ ds, GoodSeg (idOf d)
      ∧ getA stF.disk (cp (dataPath c.name (idOf d))) = some (.doc d)
      ∧ matchesQ [(k, v)] d = true) →
    collectMatches c dbRoot stF [(k, v)] (ds.map idOf) res
      = .ok (res ++ ds) := by
  intro ds
  induction ds with
  | nil => intro res _; simp [collectMatches]
  | cons d rest ih =>
      intro res h
      obtain ⟨hgu, hdata, hm⟩ := h d (by simp)
      rw [List.map_cons, collectMatches_cons,
        sr_dp_good c.name (idOf d) hgc hgu stF hceF, hdata]
      dsimp only [candDoc]
      rw [if_pos hm]
      rw [ih (res ++ [d]) (fun d' hd' => h d' (by simp [hd']))]
      simp

theorem write_preserves_shaped (c : Coll) (st : St) (d : Doc)
    (hgc : GoodSeg c.name) (hwf : WFDoc c d) (hce : st.cacheEntries = [])
    (hsh : NonUniqueShaped c st) :
    NonUniqueShaped c (Coll.write c dbRoot st d).1 := by
  obtain ⟨hnd, hgood, hpres, hid, hgu⟩ := hwf
  have hshape' : ∀ kv ∈ d, kv.1 ≠ "id" → ∀ fd', getA c.schema kv.1 = some fd' →
      fd'.index = true → fd'.unique = false →
      idsShaped (getA st.disk (cp (indexPath c.name kv.1 kv.2))) = true := by
    intro kv hkv hkvne fd' hfd' hi hu
    exact hsh kv.1 (hgood kv hkv) kv.2 fd' hfd' hi hu
  obtain ⟨w1, w2, w3, w4, w5, w6, w7⟩ := write_spec c st d hgc
    ⟨hnd, hgood, hpres, hid, hgu⟩ hce hshape'
  intro k' hgk' v' fd' hfd' hi' hu'
  by_cases hq : ∃ kv, kv ∈ d ∧ kv.1 ≠ "id"
      ∧ cp (indexPath c.name k' v') = cp (indexPath c.name kv.1 kv.2)
  · obtain ⟨kv, hkv, hkvne, hpath⟩ := hq
    have hkeq := (cp_indexPath_inj hgc hgk' (hgood kv hkv) hpath).1
    have hfdkv : getA c.schema kv.1 = some fd' := by
      rw [← hkeq]
      exact hfd'
    have hval := w4 kv hkv hkvne fd' hfdkv hi'
    rw [← hpath] at hval
    rw [hval, hu']
    simp [idsShaped]
  · push_neg at hq
    rw [w5 (cp (indexPath c.name k' v'))
      (fun hh => cp_dataPath_ne_indexPath hgc hgu hgk' hh.symm)
      (fun kv hkv hkvne => hq kv hkv hkvne)]
    exact hsh k' hgk' v' fd' hfd' hi' hu'

theorem writeMany_cons (c : Coll) (root : String) (d : Doc)
    (rest : List Doc) (st : St) :
    writeMany c root (d :: rest) st
      = (match Coll.write c root st d with
         | (st1, some e) => (st1, some e)
         | (st1, none) => writeMany c root rest st1) := rfl

theorem writeMany_spec (c : Coll) (k : String) (v : Val) (fd : FieldDesc)
    (hgc : GoodSeg c.name) (hgk : GoodSeg k) (hk : k ≠ "id")
    (hfd : getA c.schema k = some fd) (hidx : fd.index = true)
    (hnu : fd.unique = false) :
    ∀ (rest : List Doc) (st : St) (done : List Doc),
    st.cacheEntries = [] →
    (keysA st.disk).Nodup →
    NonUniqueShaped c st →
    (∀ d ∈ rest, WFDoc c d ∧ (k, v) ∈ d) →
    (((done ++ rest).map idOf)).Nodup →
    idsShaped (getA st.disk (cp (indexPath c.name k v))) = true →
    prevIds (getA st.disk (cp (indexPath c.name k v))) = done.map idOf →
    (∀ d ∈ done, getA st.disk (cp (dataPath c.name (idOf d)))
        = some (.doc d)) →
    (∀ d ∈ done, GoodSeg (idOf d)) →
    (writeMany c dbRoot rest st).2 = none
    ∧ (writeMany c dbRoot rest st).1.cacheEntries = []
    ∧ idsShaped (getA (writeMany c dbRoot rest st).1.disk
        (cp (indexPath c.name k v))) = true
    ∧ prevIds (getA (writeMany c dbRoot rest st).1.disk
        (cp (indexPath c.name k v))) = (done ++ rest).map idOf
    ∧ (∀ d ∈ done ++ rest, getA (writeMany c dbRoot rest st).1.disk
        (cp (dataPath c.name (idOf d))) = some (.doc d)) := by
  intro rest
  induction rest with
  | nil =>
      intro st done hce hnddisk hsh hdocs hids hshp hprev hdata hgood
      refine ⟨rfl, hce, hshp, ?_, ?_⟩
      · simpa using hprev
      · intro d hd
        exact hdata d (by simpa using hd)
  | cons d rest ih =>
      intro st done hce hnddisk hsh hdocs hids hshp hprev hdata hgooddone
      obtain ⟨hwfd, hmemkv⟩ := hdocs d (by simp)
      obtain ⟨hnd, hgood, hpres, hid, hgu⟩ := hwfd
      have hshape' : ∀ kv ∈ d, kv.1 ≠ "id" → ∀ fd', getA c.schema kv.1 = some fd' →
          fd'.index = true → fd'.unique = false →
          idsShaped (getA st.disk (cp (indexPath c.name kv.1 kv.2))) = true :=
        fun kv hkv hkvne fd' hfd' hi hu =>
          hsh kv.1 (hgood kv hkv) kv.2 fd' hfd' hi hu
      obtain ⟨w1, w2, w3, w4, w5, w6, w7⟩ := write_spec c st d hgc
        ⟨hnd, hgood, hpres, hid, hgu⟩ hce hshape'
      have hshW : NonUniqueShaped c (Coll.write c dbRoot st d).1 :=
        write_preserves_shaped c st d hgc ⟨hnd, hgood, hpres, hid, hgu⟩
          hce hsh
      rw [writeMany_cons]
      cases hw : Coll.write c dbRoot st d with
      | mk st2 oe =>
          rw [hw] at w1
          dsimp only at w1
          cases oe with
          | some e => exact absurd w1 (by simp)
          | none =>
              dsimp only
              rw [hw] at w2 w3 w4 w5 w6 w7 hshW
              -- the index entry after this write
              have hentry : getA st2.disk (cp (indexPath c.name k v))
                  = some (.ids (done.map idOf ++ [idOf d])) := by
                have h1 := w4 (k, v) hmemkv hk fd hfd hidx
                rw [hnu] at h1
                simp only [Bool.false_eq_true, if_false] at h1
                rw [hprev] at h1
                exact h1
              -- distinctness of data paths
              have hidsrearr : (((done ++ [d]) ++ rest).map idOf).Nodup := by
                simpa using hids
              have hdata2 : ∀ d' ∈ done ++ [d],
                  getA st2.disk (cp (dataPath c.name (idOf d')))
                    = some (.doc d') := by
                intro d' hd'
                rcases List.mem_append.mp hd' with hmem | hmem
                · have hne : idOf d' ≠ idOf d := by
                    intro hh
                    have hnds := List.nodup_append.mp
                      (by simpa using hids :
                        ((done.map idOf) ++ ((d :: rest).map idOf)).Nodup)
                    exact hnds.2.2 (hh ▸ List.mem_map_of_mem idOf hmem)
                      (by simp)
                  rw [w5 (cp (dataPath c.name (idOf d')))
                    (fun hh => hne (cp_dataPath_inj hgc
                      (hgooddone d' hmem) hgu hh))
                    (fun kv hkv hkvne => cp_dataPath_ne_indexPath hgc
                      (hgooddone d' hmem) (hgood kv hkv))]
                  exact hdata d' hmem
                · simp at hmem
                  subst hmem
                  exact w3
              have hgood2 : ∀ d' ∈ done ++ [d], GoodSeg (idOf d') := by
                intro d' hd'
                rcases List.mem_append.mp hd' with hmem | hmem
                · exact hgooddone d' hmem
                · simp at hmem
                  subst hmem
                  exact hgu
              obtain ⟨c1, c2, c3, c4, c5⟩ := ih st2 (done ++ [d]) w2
                (w7 hnddisk) hshW
                (fun d' hd' => hdocs d' (by simp [hd']))
                hidsrearr
                (by rw [hentry]; rfl)
                (by rw [hentry]; simp [prevIds])
                hdata2 hgood2
              refine ⟨c1, c2, c3, ?_, ?_⟩
              · rw [c4]
                simp
              · intro d' hd'
                apply c5
                rcases List.mem_append.mp hd' with hmem | hmem
                · simp [hmem]
                · rcases List.mem_cons.mp hmem with hmem1 | hmem1
                  · simp [hmem1]
                  · simp [hmem1]

/-- C6: sequentially writing N distinct documents that all carry the same
value v for a non-unique indexed field, starting from an empty store,
makes findAll on that field/value return exactly the N documents, in
write order. -/
theorem nonunique_writes_accumulate_findAll (c : Coll) (st0 : St)
    (ds : List Doc) (k : String) (v : Val) (fd : FieldDesc)
    (hgc : GoodSeg c.name) (hgk : GoodSeg k) (hk : k ≠ "id")
    (hfd : getA c.schema k = some fd) (hidx : fd.index = true)
    (hnu : fd.unique = false)
    (hce0 : st0.cacheEntries = []) (hdisk0 : st0.disk = [])
    (hdocs : ∀ d ∈ ds, WFDoc c d ∧ (k, v) ∈ d)
    (hids : (ds.map idOf).Nodup) :
    (writeMany c dbRoot ds st0).2 = none
    ∧ Coll.findAll c dbRoot (writeMany c dbRoot ds st0).1 [(k, v)]
        = .ok ds := by
  obtain ⟨m1, m2, m3, m4, m5⟩ := writeMany_spec c k v fd hgc hgk hk hfd hidx
    hnu ds st0 [] hce0 (by rw [hdisk0]; simp [keysA])
    (by
      intro k' _ v' fd' _ _ _
      rw [hdisk0]
      rfl)
    hdocs (by simpa using hids)
    (by rw [hdisk0]; rfl)
    (by rw [hdisk0]; rfl)
    (by intro d hd; simp at hd)
    (by intro d hd; simp at hd)
  have m4' : prevIds (getA (writeMany c dbRoot ds st0).1.disk
      (cp (indexPath c.name k v))) = ds.map idOf := by
    simpa using m4
  refine ⟨m1, ?_⟩
  have hg : gatherCands c dbRoot (writeMany c dbRoot ds st0).1 [(k, v)] []
      = .ok (ds.map idOf) := by
    rw [gatherCands_cons, if_neg hk, hfd]
    dsimp only
    rw [se_ip_good c.name k v hgc hgk _ m2]
    cases hb : ((getA (writeMany c dbRoot ds st0).1.disk
        (cp (indexPath c.name k v))).isSome
        || (writeMany c dbRoot ds st0).1.dirs.contains
          (cp (indexPath c.name k v)))
    · dsimp only
      simp only [hidx, eq_self_iff_true, if_true]
      simp at hb
      rw [hb.1] at m4'
      show Except.ok [] = _
      rw [← m4']
      rfl
    · dsimp only
      simp only [hidx, eq_self_iff_true, if_true]
      rw [sr_ip_good c.name k v hgc hgk _ m2]
      dsimp only
      simp only [hnu, Bool.false_eq_true, if_false]
      rw [idsCand_eq_prevIds _ m3, m4',
        addCands_fresh (ds.map idOf) [] (by simp) hids]
      simp [gatherCands]
  unfold Coll.findAll
  rw [hg]
  dsimp only
  have hcoll := collectMatches_docs c (writeMany c dbRoot ds st0).1 k v m2 hgc
    ds []
    (by
      intro d hd
      obtain ⟨hwfd, hmemkv⟩ := hdocs d hd
      refine ⟨hwfd.2.2.2.2, m5 d (by simp [hd]), ?_⟩
      unfold matchesQ
      simp [getA_mem_of_nodup d k v hwfd.1 hmemkv])
  simpa using hcoll

theorem nonunique_writes_accumulate_findAll_case :
    (writeMany cC6 dbRoot dsC6 initSt).2 = none
    ∧ Coll.findAll cC6 dbRoot (writeMany cC6 dbRoot dsC6 initSt).1
        [("tag", .str "t")] = .ok dsC6 := by
  have h := nonunique_writes_accumulate_findAll cC6 initSt dsC6 "tag"
    (.str "t") { index := true } (by decide) (by decide) (by decide)
    (by decide) (by decide) (by decide) rfl rfl (by decide) (by decide)
  exact h
